import Mathlib

/-!
Verification development for the INTERSECT campaign orchestrator.

Shallow embedding of the Python sources:
  - `src/intersect_orchestrator/app/core/campaign_repository.py`
  - `src/intersect_orchestrator/app/core/campaign_orchestrator.py`
  - `src/intersect_orchestrator/app/converters/campaign_to_petri_net.py`
  - `src/intersect_orchestrator/app/api/v1/endpoints/orchestrator/models/campaign.py`
  - `src/intersect_orchestrator/app/api/v1/endpoints/orchestrator/models/campaign_state.py`

Conventions used throughout this file:
  * Python `dict` values are modelled as association lists; lookups take the
    first matching key, matching unique-key dictionaries.
  * `uuid.UUID` values are modelled as their canonical lowercase dashed string.
  * Fields that no modelled operation reads (`event_id`, `timestamp`,
    `updated_at`, campaign `name`/`user`/`description`, task `capability`,
    `operation_id`, `event_name`, `input`, `output`, objectives) are omitted
    from the embedded records; no embedded operation depends on them.
  * Python exceptions that the modelled code raises are carried as
    `Except String` (repository level) or as an `Option String` exception slot
    in `Outcome` (orchestrator level), with the original message text.
-/

namespace Orchestrator

/-- Execution status for campaign elements
(`campaign_state.py`, `ExecutionStatus`). -/
inductive ExecutionStatus where
  | queued
  | running
  | complete
  | error
deriving DecidableEq, Repr

/-- A task of a task group (`campaign.py`, `Task`); only the fields the
embedded operations read are carried. -/
structure Task where
  id : String
  hierarchy : String
  task_dependencies : List String
deriving DecidableEq, Repr

/-- A task group (`campaign.py`, `TaskGroup`). -/
structure TaskGroup where
  id : String
  group_dependencies : List String
  tasks : List Task
deriving DecidableEq, Repr

/-- A campaign (`campaign.py`, `Campaign`). -/
structure Campaign where
  id : String
  task_groups : List TaskGroup
deriving DecidableEq, Repr

/-- A task together with its execution state (`campaign_state.py`,
`TaskState`). -/
structure TaskState where
  id : String
  hierarchy : String
  task_dependencies : List String
  status : ExecutionStatus
deriving DecidableEq, Repr

/-- A task group together with its execution state (`campaign_state.py`,
`TaskGroupState`). -/
structure TaskGroupState where
  id : String
  group_dependencies : List String
  tasks : List TaskState
  status : ExecutionStatus
deriving DecidableEq, Repr

/-- A campaign together with its execution state (`campaign_state.py`,
`CampaignState`).  Named `CampaignStateM` because the orchestrator module
reuses the name `CampaignState` for its in-memory dataclass, embedded below
as `LiveCampaign`. -/
structure CampaignStateM where
  id : String
  task_groups : List TaskGroupState
  status : ExecutionStatus
deriving DecidableEq, Repr

/-- `CampaignState.from_campaign` (`campaign_state.py`): snapshot a campaign
with the given status applied at campaign, group and task level. -/
def fromCampaign (c : Campaign) (status : ExecutionStatus) : CampaignStateM :=
  { id := c.id
    task_groups := c.task_groups.map (fun g =>
      { id := g.id
        group_dependencies := g.group_dependencies
        tasks := g.tasks.map (fun t =>
          { id := t.id
            hierarchy := t.hierarchy
            task_dependencies := t.task_dependencies
            status := status })
        status := status })
    status := status }

/-! ### Model of the standard library `uuid.UUID` constructor

`uuid.UUID(<str>)` removes every occurrence of the prefixes `urn:` and
`uuid:`, strips braces from both ends, removes all dashes, and accepts the
remainder iff it is exactly 32 hexadecimal digits; the canonical string form
is the lowercase dashed 8-4-4-4-12 rendering. -/

/-- One hexadecimal digit, upper or lower case. -/
def isHexDigitChar (c : Char) : Bool :=
  c.isDigit || ('a' ≤ c && c ≤ 'f') || ('A' ≤ c && c ≤ 'F')

/-- Remove every (non-overlapping, leftmost-first) occurrence of `pat` from
`cs`, as Python `str.replace(pat, '')`.  Structural recursion on a fuel
argument so that concrete evaluations reduce in the kernel. -/
def removeSubstrFuel (pat : List Char) : Nat → List Char → List Char
  | 0, _ => []
  | _ + 1, [] => []
  | fuel + 1, c :: rest =>
      if (c :: rest).take pat.length = pat ∧ pat ≠ [] then
        removeSubstrFuel pat fuel ((c :: rest).drop pat.length)
      else
        c :: removeSubstrFuel pat fuel rest

/-- Python `s.replace(pat, '')` on character lists. -/
def removeSubstr (pat cs : List Char) : List Char :=
  removeSubstrFuel pat cs.length cs

/-- Insert the canonical 8-4-4-4-12 dashes into a 32-character hex list. -/
def insertDashes (cs : List Char) : List Char :=
  cs.take 8 ++ '-' :: ((cs.drop 8).take 4) ++ '-' :: ((cs.drop 12).take 4)
    ++ '-' :: ((cs.drop 16).take 4) ++ '-' :: (cs.drop 20)

/-- Modelled from the standard library: `uuid.UUID(s)`, returning the
canonical lowercase string of the parsed UUID, or `none` when Python would
raise `ValueError`. -/
def uuidParse (s : String) : Option String :=
  let t := removeSubstr "uuid:".data (removeSubstr "urn:".data s.data)
  let cs := t.dropWhile (fun c => c = '{' || c = '}')
  let cs := (cs.reverse.dropWhile (fun c => c = '{' || c = '}')).reverse
  let hexcs := cs.filter (fun c => c ≠ '-')
  if hexcs.length = 32 && hexcs.all isHexDigitChar then
    some (String.mk (insertDashes (hexcs.map Char.toLower)))
  else none

example : uuidParse "12345678-1234-5678-1234-567812345678" =
    some "12345678-1234-5678-1234-567812345678" := by decide
example : uuidParse "task-1" = none := by decide

/-! ### Event store (`campaign_repository.py`)

`InMemoryCampaignRepository` together with the `CampaignEvent` and
`CampaignSnapshot` models.  The three backend implementations present in the
sources (in-memory, Mongo, Postgres) implement identical `append_event`
version/sequence checks; the in-memory one is embedded. -/

/-- `CampaignEvent` (`campaign_repository.py`).  `event_id` (a fresh
`uuid4()`) and `timestamp` are omitted: no modelled operation reads them.
Payload values are the strings the orchestrator stores. -/
structure CampaignEvent where
  campaign_id : String
  seq : Nat
  event_type : String
  payload : List (String × String)
deriving DecidableEq, Repr

/-- `CampaignSnapshot` (`campaign_repository.py`); `updated_at` omitted. -/
structure CampaignSnapshot where
  campaign_id : String
  version : Nat
  state : CampaignStateM
deriving DecidableEq, Repr

/-- The three maps guarded by the repository mutex
(`InMemoryCampaignRepository`). -/
structure Repo where
  campaigns : List (String × Campaign)
  snapshots : List (String × CampaignSnapshot)
  events : List (String × List CampaignEvent)
deriving DecidableEq, Repr

/-- Replace the value stored under `k` (first occurrence) in an association
list; used to model in-place mutation of a Python dict entry. -/
def setAssoc {α : Type} (l : List (String × α)) (k : String) (v : α) :
    List (String × α) :=
  match l with
  | [] => []
  | (k', v') :: rest =>
      if k' = k then (k', v) :: rest else (k', v') :: setAssoc rest k v

/-- `InMemoryCampaignRepository.create_campaign`: fail when the id is taken,
else insert the campaign, a version-0 snapshot and an empty event list. -/
def Repo.create_campaign (r : Repo) (cid : String) (c : Campaign)
    (st : CampaignStateM) : Except String Repo :=
  if (r.campaigns.lookup cid).isSome then
    .error ("Campaign already exists: " ++ cid)
  else
    .ok { campaigns := r.campaigns ++ [(cid, c)],
          snapshots := r.snapshots ++
            [(cid, { campaign_id := cid, version := 0, state := st })],
          events := r.events ++ [(cid, [])] }

/-- `InMemoryCampaignRepository.get_campaign`. -/
def Repo.get_campaign (r : Repo) (cid : String) : Option Campaign :=
  r.campaigns.lookup cid

/-- `InMemoryCampaignRepository.load_snapshot` (the Python deep copy is the
identity in this pure model). -/
def Repo.load_snapshot (r : Repo) (cid : String) : Option CampaignSnapshot :=
  r.snapshots.lookup cid

/-- `InMemoryCampaignRepository.append_event`: appends iff the stored
snapshot's version equals `expected_version` and the event's `seq` is
`expected_version + 1`; it never touches the snapshot map. -/
def Repo.append_event (r : Repo) (e : CampaignEvent)
    (expected_version : Nat) : Except String Repo :=
  match r.snapshots.lookup e.campaign_id with
  | none => .error ("Campaign not found: " ++ e.campaign_id)
  | some snapshot =>
      if snapshot.version ≠ expected_version then
        .error "version mismatch when appending event"
      else if e.seq ≠ expected_version + 1 then
        .error "sequence mismatch when appending event"
      else
        let evs := ((r.events.lookup e.campaign_id).getD []) ++ [e]
        .ok { r with events := setAssoc r.events e.campaign_id evs }

/-- `InMemoryCampaignRepository.load_events` with `after_seq = 0`. -/
def Repo.load_events (r : Repo) (cid : String) : List CampaignEvent :=
  (r.events.lookup cid).getD []

/-- `InMemoryCampaignRepository.update_snapshot`: compare-and-set on the
stored snapshot's version. -/
def Repo.update_snapshot (r : Repo) (snapshot : CampaignSnapshot)
    (expected_version : Nat) : Except String Repo :=
  match r.snapshots.lookup snapshot.campaign_id with
  | none => .error ("Campaign not found: " ++ snapshot.campaign_id)
  | some current =>
      if current.version ≠ expected_version then
        .error "version mismatch when updating snapshot"
      else
        let snaps := setAssoc r.snapshots snapshot.campaign_id snapshot
        .ok { r with snapshots := snaps }

/-- `InMemoryCampaignRepository.campaign_exists`. -/
def Repo.campaign_exists (r : Repo) (cid : String) : Bool :=
  (r.campaigns.lookup cid).isSome

/-! ### Orchestrator recording operations (`campaign_orchestrator.py`)

The `_record_*` family.  Each loads the snapshot (silently returning when the
campaign is unknown), appends an event at `seq = version + 1`, and — only for
the event types present in its `status_map` — writes an updated snapshot. -/

/-- Python `{'task_group_id': tg, **payload}`-style merge: the base keys in
order, overridden by the overlay where keys collide, then the remaining
overlay keys. -/
def dictMerge (base overlay : List (String × String)) :
    List (String × String) :=
  base.map (fun kv => (kv.1, ((overlay.lookup kv.1).getD kv.2)))
    ++ overlay.filter (fun kv => (base.lookup kv.1).isNone)

/-- `status_map` of `_record_campaign_event`. -/
def campaignStatusMap (event_type : String) : Option ExecutionStatus :=
  if event_type = "CAMPAIGN_STARTED" then some .running
  else if event_type = "CAMPAIGN_COMPLETED" then some .complete
  else if event_type = "CAMPAIGN_CANCELLED" then some .error
  else none

/-- `status_map` of `_record_task_group_event`. -/
def taskGroupStatusMap (event_type : String) : Option ExecutionStatus :=
  if event_type = "TASK_GROUP_STARTED" then some .running
  else if event_type = "TASK_GROUP_COMPLETED" then some .complete
  else none

/-- `status_map` of `_record_task_event` (`TASK_EVENT_RECEIVED` is absent:
it changes no status). -/
def taskStatusMap (event_type : String) : Option ExecutionStatus :=
  if event_type = "TASK_NOT_RUNNING" then some .queued
  else if event_type = "TASK_RUNNING" then some .running
  else if event_type = "TASK_COMPLETED" then some .complete
  else if event_type = "TASK_FAILED" then some .error
  else none

/-- Update the first task group with the given id (the Python loop breaks at
the first match). -/
def updateFirstGroup (gs : List TaskGroupState) (tgid : String)
    (f : TaskGroupState → TaskGroupState) : List TaskGroupState :=
  match gs with
  | [] => []
  | g :: rest =>
      if g.id = tgid then f g :: rest
      else g :: updateFirstGroup rest tgid f

/-- Update the first task with the given id (the Python inner loop breaks at
the first match). -/
def updateFirstTask (ts : List TaskState) (tid : String)
    (f : TaskState → TaskState) : List TaskState :=
  match ts with
  | [] => []
  | t :: rest =>
      if t.id = tid then f t :: rest
      else t :: updateFirstTask rest tid f

/-- `CampaignOrchestrator._record_event`: append only, no snapshot update. -/
def record_event (r : Repo) (cid : String) (event_type : String)
    (payload : List (String × String)) : Except String Repo :=
  match r.load_snapshot cid with
  | none => .ok r
  | some snapshot =>
      r.append_event
        { campaign_id := cid, seq := snapshot.version + 1
          event_type := event_type, payload := payload }
        snapshot.version

/-- `CampaignOrchestrator._record_campaign_event`: append, then update the
campaign status and snapshot version only for the `status_map` types. -/
def record_campaign_event (r : Repo) (cid : String) (event_type : String)
    (payload : List (String × String)) : Except String Repo :=
  match r.load_snapshot cid with
  | none => .ok r
  | some snapshot =>
      let event : CampaignEvent :=
        { campaign_id := cid, seq := snapshot.version + 1
          event_type := event_type, payload := payload }
      match r.append_event event snapshot.version with
      | .error e => .error e
      | .ok r' =>
          match campaignStatusMap event_type with
          | none => .ok r'
          | some st =>
              let state' := { snapshot.state with status := st }
              r'.update_snapshot
                { snapshot with version := event.seq, state := state' }
                (event.seq - 1)

/-- `CampaignOrchestrator._record_task_group_event`: append the enriched
event, then update the group status and snapshot version only for
`TASK_GROUP_STARTED` / `TASK_GROUP_COMPLETED`. -/
def record_task_group_event (r : Repo) (cid : String)
    (task_group_id : String) (event_type : String)
    (payload : List (String × String)) : Except String Repo :=
  match r.load_snapshot cid with
  | none => .ok r
  | some snapshot =>
      let event : CampaignEvent :=
        { campaign_id := cid, seq := snapshot.version + 1
          event_type := event_type
          payload := dictMerge [("task_group_id", task_group_id)] payload }
      match r.append_event event snapshot.version with
      | .error e => .error e
      | .ok r' =>
          match taskGroupStatusMap event_type with
          | none => .ok r'
          | some st =>
              let groups' := updateFirstGroup snapshot.state.task_groups
                task_group_id (fun g => { g with status := st })
              let state' := { snapshot.state with task_groups := groups' }
              r'.update_snapshot
                { snapshot with version := event.seq, state := state' }
                (event.seq - 1)

/-- `CampaignOrchestrator._record_task_event`: append the enriched event,
then update the task status and snapshot version only for the four
status-changing task event types. -/
def record_task_event (r : Repo) (cid : String) (task_group_id : String)
    (task_id : String) (event_type : String)
    (payload : List (String × String)) : Except String Repo :=
  match r.load_snapshot cid with
  | none => .ok r
  | some snapshot =>
      let event : CampaignEvent :=
        { campaign_id := cid, seq := snapshot.version + 1
          event_type := event_type
          payload := dictMerge
            [("task_group_id", task_group_id), ("task_id", task_id)] payload }
      match r.append_event event snapshot.version with
      | .error e => .error e
      | .ok r' =>
          match taskStatusMap event_type with
          | none => .ok r'
          | some st =>
              let setTask := fun (g : TaskGroupState) =>
                let tasks' :=
                  updateFirstTask g.tasks task_id
                    (fun t => { t with status := st })
                { g with tasks := tasks' }
              let groups' := updateFirstGroup snapshot.state.task_groups
                task_group_id setTask
              let state' := { snapshot.state with task_groups := groups' }
              r'.update_snapshot
                { snapshot with version := event.seq, state := state' }
                (event.seq - 1)

/-- `CampaignOrchestrator._record_task_group_objective_met`: record
`TASK_GROUP_OBJECTIVE_MET` and then `TASK_GROUP_COMPLETED` for the group. -/
def record_task_group_objective_met (r : Repo) (cid : String)
    (task_group_id : String) (objective_id : String) : Except String Repo :=
  match record_task_group_event r cid task_group_id
      "TASK_GROUP_OBJECTIVE_MET" [("objective_id", objective_id)] with
  | .error e => .error e
  | .ok r' =>
      record_task_group_event r' cid task_group_id
        "TASK_GROUP_COMPLETED"
        [("reason", "objective_met"), ("objective_id", objective_id)]


/-! ### Fixtures and derived observations on the event store -/

/-- The empty repository (a freshly constructed
`InMemoryCampaignRepository`). -/
def emptyRepo : Repo := { campaigns := [], snapshots := [], events := [] }

/-- A one-group, one-task campaign, as in the repository's unit tests. -/
def demoCampaign : Campaign :=
  { id := "c1",
    task_groups :=
      [{ id := "g1",
         group_dependencies := [],
         tasks := [{ id := "11111111-1111-1111-1111-111111111111",
                     hierarchy := "org.fac.system.subsystem.service1",
                     task_dependencies := [] }] }] }

/-- `demoCampaign` freshly created in the store: version-0 snapshot, empty
event log. -/
def demoRepo : Repo :=
  (emptyRepo.create_campaign "c1" demoCampaign
      (fromCampaign demoCampaign .queued)).toOption.getD emptyRepo

/-- The events appended for a campaign. -/
def eventsOf (r : Repo) (cid : String) : List CampaignEvent :=
  r.load_events cid

/-- The stored snapshot's version for a campaign. -/
def versionOf (r : Repo) (cid : String) : Option Nat :=
  (r.load_snapshot cid).map (fun s => s.version)

/-- Maximum `seq` over all events appended for a campaign (0 when none). -/
def maxSeq (r : Repo) (cid : String) : Nat :=
  ((r.load_events cid).map (fun e => e.seq)).foldr max 0

example : versionOf demoRepo "c1" = some 0 := by decide
example : eventsOf demoRepo "c1" = [] := by decide

/-! ### Association-list and fold lemmas -/

theorem lookup_setAssoc {α : Type} (l : List (String × α)) (k : String)
    (v w : α) (h : l.lookup k = some w) :
    (setAssoc l k v).lookup k = some v := by
  induction l with
  | nil => simp [List.lookup] at h
  | cons kv rest ih =>
      obtain ⟨k', v'⟩ := kv
      by_cases hk : k' = k
      · subst hk
        simp [setAssoc, List.lookup]
      · have hk' : (k == k') = false := by
          simp [beq_iff_eq]
          exact fun hkk => hk hkk.symm
        simp [setAssoc, List.lookup, hk, hk'] at h ⊢
        exact ih h

theorem lookup_setAssoc_ne {α : Type} (l : List (String × α))
    (k k' : String) (v : α) (h : k' ≠ k) :
    (setAssoc l k v).lookup k' = l.lookup k' := by
  induction l with
  | nil => simp [setAssoc]
  | cons kv rest ih =>
      obtain ⟨ka, va⟩ := kv
      by_cases hk : ka = k
      · subst hk
        have : (k' == ka) = false := by simp [beq_iff_eq]; exact h
        simp [setAssoc, List.lookup, this]
      · simp [setAssoc, List.lookup, hk]
        by_cases hq : k' = ka
        · subst hq; simp
        · have : (k' == ka) = false := by simp [beq_iff_eq]; exact hq
          simp [this, ih]

theorem foldr_max_append (xs : List Nat) (a : Nat) :
    (xs ++ [a]).foldr max 0 = max (xs.foldr max 0) a := by
  induction xs with
  | nil => simp [Nat.max_comm]
  | cons x xs ih =>
      simp [List.foldr, ih, Nat.max_assoc]

/-! ### Repository operation lemmas -/

theorem append_event_ok (r : Repo) (e : CampaignEvent)
    (snap : CampaignSnapshot)
    (h : r.snapshots.lookup e.campaign_id = some snap)
    (hs : e.seq = snap.version + 1) :
    r.append_event e snap.version =
      .ok (Repo.mk r.campaigns r.snapshots
        (setAssoc r.events e.campaign_id
          (((r.events.lookup e.campaign_id).getD []) ++ [e]))) := by
  unfold Repo.append_event
  rw [h]
  simp [hs]

theorem update_snapshot_ok (r : Repo) (snap' cur : CampaignSnapshot)
    (expected : Nat)
    (h : r.snapshots.lookup snap'.campaign_id = some cur)
    (hv : cur.version = expected) :
    r.update_snapshot snap' expected =
      .ok (Repo.mk r.campaigns
        (setAssoc r.snapshots snap'.campaign_id snap') r.events) := by
  unfold Repo.update_snapshot
  rw [h]
  simp [hv]

/-! ### Claim C1 — the objective-met pair of events

`_record_task_group_objective_met` records `TASK_GROUP_OBJECTIVE_MET` and
then `TASK_GROUP_COMPLETED` via `_record_task_group_event`, whose
`status_map` does not contain `TASK_GROUP_OBJECTIVE_MET`; no snapshot update
happens between the two appends, and no `append_event` implementation in the
sources bumps the snapshot version, so both events are built from a snapshot
still at version `v`. -/

/-- C1: evaluated on a fresh campaign snapshot at version 0, recording an
objective met appends the two expected event types, both carrying the same
`task_group_id`, but BOTH events get `seq = 1` (= v+1, v+1, not v+1, v+2)
and the snapshot ends at version 1, not 2 — contradicting the claim and the
repository's own test
`test_record_task_group_objective_met_fires_both_events`, which asserts
seqs 1 and 2. -/
theorem c1_objective_met_pair_duplicates_seq :
    (record_task_group_objective_met demoRepo "c1" "g1" "obj-1").toOption.map
        (fun r' =>
          ((eventsOf r' "c1").map
            (fun e => (e.event_type, e.seq, e.payload.lookup "task_group_id")),
           versionOf r' "c1"))
      = some ([("TASK_GROUP_OBJECTIVE_MET", 1, some "g1"),
               ("TASK_GROUP_COMPLETED", 1, some "g1")], some 1) := by decide

/-- C2: after one objective-met recording on a fresh campaign, the campaign's
event log holds two successfully appended events whose `seq` values are NOT
pairwise distinct (both are 1) — refuting the no-duplicate-seq invariant on
the code as written. -/
theorem c2_two_appended_events_share_seq :
    (record_task_group_objective_met demoRepo "c1" "g1" "obj-1").toOption.map
        (fun r' => ((eventsOf r' "c1").map (fun e => e.seq),
                    decide (((eventsOf r' "c1").map (fun e => e.seq)).Nodup),
                    (eventsOf r' "c1").length))
      = some ([1, 1], false, 2) := by decide

/-- C3 counterexample: a successful `_record_event` (the STEP_COMPLETE
recording) on a fresh campaign appends the event with seq 1 but leaves the
stored snapshot at version 0, so `snapshot.version ≠ max seq` right after a
successful reducer action. -/
theorem c3_step_complete_version_lags_max_seq :
    (record_event demoRepo "c1" "STEP_COMPLETE"
        [("step_id", "11111111-1111-1111-1111-111111111111")]).toOption.map
        (fun r' => (versionOf r' "c1", maxSeq r' "c1"))
      = some (some 0, 1) := by decide

/-! ### Result shapes of the recording operations -/

/-- Repository after a successful bare append for campaign `cid` whose event
log was `evs`. -/
def appendedRepo (r : Repo) (cid : String) (evs : List CampaignEvent)
    (event : CampaignEvent) : Repo :=
  Repo.mk r.campaigns r.snapshots (setAssoc r.events cid (evs ++ [event]))

/-- Repository after a successful append followed by a snapshot
compare-and-set to `snap'`. -/
def appendedUpdatedRepo (r : Repo) (cid : String) (evs : List CampaignEvent)
    (event : CampaignEvent) (snap' : CampaignSnapshot) : Repo :=
  Repo.mk r.campaigns (setAssoc r.snapshots cid snap')
    (setAssoc r.events cid (evs ++ [event]))

theorem record_event_ok_shape (r : Repo) (cid etype : String)
    (payload : List (String × String)) (snap : CampaignSnapshot)
    (evs : List CampaignEvent)
    (h : r.snapshots.lookup cid = some snap)
    (he : r.events.lookup cid = some evs) :
    record_event r cid etype payload =
      .ok (appendedRepo r cid evs
        { campaign_id := cid, seq := snap.version + 1,
          event_type := etype, payload := payload }) := by
  unfold record_event Repo.load_snapshot
  rw [h]
  dsimp only
  rw [append_event_ok r _ snap h rfl]
  rw [appendedRepo, he]
  rfl

theorem record_campaign_event_ok_shape (r : Repo) (cid etype : String)
    (payload : List (String × String)) (snap : CampaignSnapshot)
    (evs : List CampaignEvent) (st : ExecutionStatus)
    (h : r.snapshots.lookup cid = some snap)
    (hcid : snap.campaign_id = cid)
    (he : r.events.lookup cid = some evs)
    (hst : campaignStatusMap etype = some st) :
    record_campaign_event r cid etype payload =
      .ok (appendedUpdatedRepo r cid evs
        { campaign_id := cid, seq := snap.version + 1,
          event_type := etype, payload := payload }
        { snap with version := snap.version + 1,
                    state := { snap.state with status := st } }) := by
  unfold record_campaign_event Repo.load_snapshot
  rw [h]
  dsimp only
  rw [append_event_ok r _ snap h rfl]
  dsimp only
  rw [hst]
  dsimp only
  rw [update_snapshot_ok _ _ snap _ (by rw [hcid]; exact h) (by simp)]
  rw [appendedUpdatedRepo, he, hcid]
  rfl

/-- The snapshot written by `_record_task_group_event` for a
status-changing event type. -/
def tgSnapUpdate (snap : CampaignSnapshot) (tgid : String)
    (st : ExecutionStatus) : CampaignSnapshot :=
  let groups' := updateFirstGroup snap.state.task_groups tgid
    (fun g => { g with status := st })
  let state' := { snap.state with task_groups := groups' }
  { snap with version := snap.version + 1, state := state' }

/-- The snapshot written by `_record_task_event` for a status-changing event
type. -/
def taskSnapUpdate (snap : CampaignSnapshot) (tgid tid : String)
    (st : ExecutionStatus) : CampaignSnapshot :=
  let setTask := fun (g : TaskGroupState) =>
    let tasks' := updateFirstTask g.tasks tid (fun t => { t with status := st })
    { g with tasks := tasks' }
  let groups' := updateFirstGroup snap.state.task_groups tgid setTask
  let state' := { snap.state with task_groups := groups' }
  { snap with version := snap.version + 1, state := state' }

theorem record_task_group_event_ok_shape (r : Repo) (cid tgid etype : String)
    (payload : List (String × String)) (snap : CampaignSnapshot)
    (evs : List CampaignEvent) (st : ExecutionStatus)
    (h : r.snapshots.lookup cid = some snap)
    (hcid : snap.campaign_id = cid)
    (he : r.events.lookup cid = some evs)
    (hst : taskGroupStatusMap etype = some st) :
    record_task_group_event r cid tgid etype payload =
      .ok (appendedUpdatedRepo r cid evs
        { campaign_id := cid, seq := snap.version + 1,
          event_type := etype,
          payload := dictMerge [("task_group_id", tgid)] payload }
        (tgSnapUpdate snap tgid st)) := by
  unfold record_task_group_event Repo.load_snapshot
  rw [h]
  dsimp only
  rw [append_event_ok r _ snap h rfl]
  dsimp only
  rw [hst]
  dsimp only
  rw [update_snapshot_ok _ _ snap _ (by rw [hcid]; exact h) (by simp)]
  rw [appendedUpdatedRepo, he, hcid]
  simp [tgSnapUpdate, hcid]

theorem record_task_event_ok_shape (r : Repo) (cid tgid tid etype : String)
    (payload : List (String × String)) (snap : CampaignSnapshot)
    (evs : List CampaignEvent) (st : ExecutionStatus)
    (h : r.snapshots.lookup cid = some snap)
    (hcid : snap.campaign_id = cid)
    (he : r.events.lookup cid = some evs)
    (hst : taskStatusMap etype = some st) :
    record_task_event r cid tgid tid etype payload =
      .ok (appendedUpdatedRepo r cid evs
        { campaign_id := cid, seq := snap.version + 1,
          event_type := etype,
          payload := dictMerge
            [("task_group_id", tgid), ("task_id", tid)] payload }
        (taskSnapUpdate snap tgid tid st)) := by
  unfold record_task_event Repo.load_snapshot
  rw [h]
  dsimp only
  rw [append_event_ok r _ snap h rfl]
  dsimp only
  rw [hst]
  dsimp only
  rw [update_snapshot_ok _ _ snap _ (by rw [hcid]; exact h) (by simp)]
  rw [appendedUpdatedRepo, he, hcid]
  simp [taskSnapUpdate, hcid]

/-! ### Observations on the result repositories -/

theorem versionOf_appendedUpdated (r : Repo) (cid : String)
    (evs : List CampaignEvent) (event : CampaignEvent)
    (snap snap' : CampaignSnapshot)
    (h : r.snapshots.lookup cid = some snap) :
    versionOf (appendedUpdatedRepo r cid evs event snap') cid =
      some snap'.version := by
  unfold versionOf Repo.load_snapshot appendedUpdatedRepo
  rw [lookup_setAssoc _ _ _ _ h]
  rfl

theorem load_events_appendedUpdated (r : Repo) (cid : String)
    (evs : List CampaignEvent) (event : CampaignEvent)
    (snap' : CampaignSnapshot)
    (he : r.events.lookup cid = some evs) :
    (appendedUpdatedRepo r cid evs event snap').load_events cid =
      evs ++ [event] := by
  unfold Repo.load_events appendedUpdatedRepo
  rw [lookup_setAssoc _ _ _ _ he]
  rfl

theorem versionOf_appended (r : Repo) (cid : String)
    (evs : List CampaignEvent) (event : CampaignEvent) :
    versionOf (appendedRepo r cid evs event) cid = versionOf r cid := rfl

theorem load_events_appended (r : Repo) (cid : String)
    (evs : List CampaignEvent) (event : CampaignEvent)
    (he : r.events.lookup cid = some evs) :
    (appendedRepo r cid evs event).load_events cid = evs ++ [event] := by
  unfold Repo.load_events appendedRepo
  rw [lookup_setAssoc _ _ _ _ he]
  rfl

theorem maxSeq_of_load_events_append (r' : Repo) (cid : String)
    (evs : List CampaignEvent) (event : CampaignEvent)
    (hl : r'.load_events cid = evs ++ [event]) :
    maxSeq r' cid =
      max ((evs.map (fun e => e.seq)).foldr max 0) event.seq := by
  unfold maxSeq
  rw [hl, List.map_append]
  exact foldr_max_append _ _

theorem maxSeq_eq_of_events (r : Repo) (cid : String)
    (evs : List CampaignEvent) (he : r.events.lookup cid = some evs) :
    maxSeq r cid = (evs.map (fun e => e.seq)).foldr max 0 := by
  unfold maxSeq Repo.load_events
  rw [he]
  rfl

/-- C3 (amended): the claim holds only for the recording operations whose
event type appears in the operation's `status_map` (campaign events
CAMPAIGN_STARTED / CAMPAIGN_COMPLETED / CAMPAIGN_CANCELLED, task-group
events TASK_GROUP_STARTED / TASK_GROUP_COMPLETED, task events
TASK_NOT_RUNNING / TASK_RUNNING / TASK_COMPLETED / TASK_FAILED): for those,
after a successful recording the snapshot version equals the maximum
appended `seq`.  `_record_event` (STEP_COMPLETE recording) instead appends
seq v+1 while leaving the snapshot at version v, so the event log runs one
ahead of the snapshot. -/
theorem c3_amended_version_tracks_status_events
    (r : Repo) (cid : String) (snap : CampaignSnapshot)
    (evs : List CampaignEvent)
    (h : r.snapshots.lookup cid = some snap)
    (hcid : snap.campaign_id = cid)
    (he : r.events.lookup cid = some evs)
    (hm : maxSeq r cid = snap.version) :
    (∀ etype st payload r', campaignStatusMap etype = some st →
        record_campaign_event r cid etype payload = .ok r' →
        versionOf r' cid = some (snap.version + 1) ∧
        maxSeq r' cid = snap.version + 1)
    ∧ (∀ etype st tgid payload r', taskGroupStatusMap etype = some st →
        record_task_group_event r cid tgid etype payload = .ok r' →
        versionOf r' cid = some (snap.version + 1) ∧
        maxSeq r' cid = snap.version + 1)
    ∧ (∀ etype st tgid tid payload r', taskStatusMap etype = some st →
        record_task_event r cid tgid tid etype payload = .ok r' →
        versionOf r' cid = some (snap.version + 1) ∧
        maxSeq r' cid = snap.version + 1)
    ∧ (∀ etype payload r',
        record_event r cid etype payload = .ok r' →
        versionOf r' cid = some snap.version ∧
        maxSeq r' cid = snap.version + 1) := by
  have hold : (evs.map (fun e => e.seq)).foldr max 0 = snap.version := by
    rw [← maxSeq_eq_of_events r cid evs he]; exact hm
  refine ⟨?_, ?_, ?_, ?_⟩
  · intro etype st payload r' hst hrec
    rw [record_campaign_event_ok_shape r cid etype payload snap evs st h hcid
      he hst] at hrec
    injection hrec with hh
    subst hh
    constructor
    · rw [versionOf_appendedUpdated _ _ _ _ snap _ h]
    · rw [maxSeq_of_load_events_append _ cid evs _
        (load_events_appendedUpdated r cid evs _ _ he)]
      rw [hold]
      exact Nat.max_eq_right (Nat.le_succ _)
  · intro etype st tgid payload r' hst hrec
    rw [record_task_group_event_ok_shape r cid tgid etype payload snap evs st
      h hcid he hst] at hrec
    injection hrec with hh
    subst hh
    constructor
    · rw [versionOf_appendedUpdated _ _ _ _ snap _ h]
      rfl
    · rw [maxSeq_of_load_events_append _ cid evs _
        (load_events_appendedUpdated r cid evs _ _ he)]
      rw [hold]
      exact Nat.max_eq_right (Nat.le_succ _)
  · intro etype st tgid tid payload r' hst hrec
    rw [record_task_event_ok_shape r cid tgid tid etype payload snap evs st
      h hcid he hst] at hrec
    injection hrec with hh
    subst hh
    constructor
    · rw [versionOf_appendedUpdated _ _ _ _ snap _ h]
      rfl
    · rw [maxSeq_of_load_events_append _ cid evs _
        (load_events_appendedUpdated r cid evs _ _ he)]
      rw [hold]
      exact Nat.max_eq_right (Nat.le_succ _)
  · intro etype payload r' hrec
    rw [record_event_ok_shape r cid etype payload snap evs h he] at hrec
    injection hrec with hh
    subst hh
    constructor
    · rw [versionOf_appended]
      unfold versionOf Repo.load_snapshot
      rw [h]
      rfl
    · rw [maxSeq_of_load_events_append _ cid evs _
        (load_events_appended r cid evs _ he)]
      rw [hold]
      exact Nat.max_eq_right (Nat.le_succ _)

/-- The snapshot created for `demoCampaign` by `create_campaign`. -/
def demoSnap : CampaignSnapshot :=
  { campaign_id := "c1", version := 0,
    state := fromCampaign demoCampaign .queued }

/-- Witness for the amended C3 theorem at the fresh demo repository. -/
theorem c3_amended_version_tracks_status_events_witness :
    demoRepo.snapshots.lookup "c1" = some demoSnap ∧
    demoSnap.campaign_id = "c1" ∧
    demoRepo.events.lookup "c1" = some [] ∧
    maxSeq demoRepo "c1" = demoSnap.version ∧
    (∀ etype payload r',
        record_event demoRepo "c1" etype payload = .ok r' →
        versionOf r' "c1" = some demoSnap.version ∧
        maxSeq r' "c1" = demoSnap.version + 1) :=
  ⟨by decide, by decide, by decide, by decide,
   (c3_amended_version_tracks_status_events demoRepo "c1" demoSnap []
      (by decide) (by decide) (by decide) (by decide)).2.2.2⟩

/-- C4: for a campaign present in the in-memory store (its snapshot and
event list exist), `append_event(event, expected_version)` succeeds iff the
stored snapshot's version equals `expected_version` and `event.seq` equals
`expected_version + 1`; a successful append extends the campaign's event log
by exactly that event and leaves the campaign and snapshot maps (hence the
snapshot's version) unchanged; a failure is a version-mismatch or
sequence-mismatch error. -/
theorem c4_append_event_contract (r : Repo) (e : CampaignEvent) (ev : Nat)
    (snap : CampaignSnapshot) (evs : List CampaignEvent)
    (h : r.load_snapshot e.campaign_id = some snap)
    (he : r.events.lookup e.campaign_id = some evs) :
    ((∃ r', r.append_event e ev = .ok r') ↔
        (snap.version = ev ∧ e.seq = ev + 1))
    ∧ (∀ r', r.append_event e ev = .ok r' →
        r'.snapshots = r.snapshots ∧ r'.campaigns = r.campaigns ∧
        r'.load_events e.campaign_id = r.load_events e.campaign_id ++ [e])
    ∧ (∀ msg, r.append_event e ev = .error msg →
        msg = "version mismatch when appending event" ∨
        msg = "sequence mismatch when appending event") := by
  have h' : r.snapshots.lookup e.campaign_id = some snap := h
  refine ⟨⟨?_, ?_⟩, ?_, ?_⟩
  · rintro ⟨r', hr⟩
    unfold Repo.append_event at hr
    rw [h'] at hr
    by_cases hv : snap.version = ev
    · by_cases hs : e.seq = ev + 1
      · exact ⟨hv, hs⟩
      · simp [hv, hs] at hr
    · simp [hv] at hr
  · rintro ⟨hv, hs⟩
    subst hv
    exact ⟨_, append_event_ok r e snap h' hs⟩
  · intro r' hr
    by_cases hv : snap.version = ev
    · by_cases hs : e.seq = ev + 1
      · rw [← hv] at hr
        rw [append_event_ok r e snap h' (by rw [hv]; exact hs)] at hr
        injection hr with hh
        subst hh
        refine ⟨rfl, rfl, ?_⟩
        unfold Repo.load_events
        rw [lookup_setAssoc _ _ _ _ he, he]
        rfl
      · unfold Repo.append_event at hr
        rw [h'] at hr
        simp [hv, hs] at hr
    · unfold Repo.append_event at hr
      rw [h'] at hr
      simp [hv] at hr
  · intro msg hmsg
    unfold Repo.append_event at hmsg
    rw [h'] at hmsg
    by_cases hv : snap.version = ev
    · by_cases hs : e.seq = ev + 1
      · simp [hv, hs] at hmsg
      · simp [hv, hs] at hmsg
        right
        exact hmsg.symm
    · simp [hv] at hmsg
      left
      exact hmsg.symm

/-- A concrete event for the C4 witness: seq 1 against expected version 0. -/
def demoEvent : CampaignEvent :=
  { campaign_id := "c1", seq := 1, event_type := "CAMPAIGN_STARTED",
    payload := [] }

/-- Witness for C4 at the fresh demo repository: the hypotheses hold
concretely and the iff yields a successful append. -/
theorem c4_append_event_contract_witness :
    demoRepo.load_snapshot "c1" = some demoSnap ∧
    demoRepo.events.lookup "c1" = some [] ∧
    (∃ r', demoRepo.append_event demoEvent 0 = .ok r') :=
  ⟨by decide, by decide,
   ((c4_append_event_contract demoRepo demoEvent 0 demoSnap []
      (by decide) (by decide)).1).mpr ⟨by decide, by decide⟩⟩

/-! ### Step extraction (`CampaignOrchestrator._steps_from_campaign`)

The Python loop appends `uuid.UUID(task.id)` for each task of each group and
silently `continue`s when the id does not parse as a UUID. -/

/-- Inner loop over one group's tasks with the accumulated steps. -/
def stepsFromTasks : List Task → List String → List String
  | [], acc => acc
  | t :: ts, acc =>
      match uuidParse t.id with
      | some u => stepsFromTasks ts (acc ++ [u])
      | none => stepsFromTasks ts acc

/-- Outer loop over the task groups. -/
def stepsFromGroups : List TaskGroup → List String → List String
  | [], acc => acc
  | g :: gs, acc => stepsFromGroups gs (stepsFromTasks g.tasks acc)

/-- `CampaignOrchestrator._steps_from_campaign`. -/
def stepsFromCampaign (c : Campaign) : List String :=
  stepsFromGroups c.task_groups []

/-- Modelled from the spec: the step list C9 claims — the ordered flattening
of ALL task ids across all task groups, each task contributing exactly one
step. -/
def claimAllTaskIds (c : Campaign) : List String :=
  (c.task_groups.map (fun g => g.tasks.map (fun t => t.id))).flatten

/-- A valid campaign whose single task id is not UUID-formatted (the model
allows arbitrary string ids). -/
def nonUuidCampaign : Campaign :=
  { id := "c9",
    task_groups :=
      [{ id := "g", group_dependencies := [],
         tasks := [{ id := "task-1", hierarchy := "o.f.s.su.se",
                     task_dependencies := [] }] }] }

/-- C9 counterexample: for a campaign with a non-UUID task id, the step list
produced at submission is empty while the claimed flattening of all task ids
has one entry — the task contributes no step, refuting the claim. -/
theorem c9_steps_skip_non_uuid_task_ids :
    stepsFromCampaign nonUuidCampaign = [] ∧
    claimAllTaskIds nonUuidCampaign = ["task-1"] := by decide

theorem stepsFromTasks_spec (ts : List Task) (acc : List String) :
    stepsFromTasks ts acc = acc ++ ts.filterMap (fun t => uuidParse t.id) := by
  induction ts generalizing acc with
  | nil => simp [stepsFromTasks]
  | cons t ts ih =>
      unfold stepsFromTasks
      cases h : uuidParse t.id with
      | none => simp [h, ih]
      | some u => simp [h, ih, List.filterMap_cons]

theorem stepsFromGroups_spec (gs : List TaskGroup) (acc : List String) :
    stepsFromGroups gs acc =
      acc ++ (gs.map (fun g =>
        g.tasks.filterMap (fun t => uuidParse t.id))).flatten := by
  induction gs generalizing acc with
  | nil => simp [stepsFromGroups]
  | cons g gs ih =>
      unfold stepsFromGroups
      rw [ih, stepsFromTasks_spec]
      simp

/-- C9 (amended): the step list produced at submission is the ordered
flattening, across all task groups in declaration order, of those task ids
that parse as UUIDs (in canonical form); each UUID-parsable task contributes
exactly one step and non-parsable task ids are silently skipped. -/
theorem c9_amended_steps_flatten_uuid_task_ids (c : Campaign) :
    stepsFromCampaign c =
      (c.task_groups.map (fun g =>
        g.tasks.filterMap (fun t => uuidParse t.id))).flatten := by
  unfold stepsFromCampaign
  rw [stepsFromGroups_spec]
  simp

/-! ### Parsed JSON values

Python values obtained from `json.loads` (plus the `bool` header values the
orchestrator defensively checks for).  A mutual inductive is used instead of
nesting `List` so that every recursion below is structural and
kernel-reducible. -/

mutual
inductive Jsonish where
  | jnull
  | jbool (b : Bool)
  | jnum (n : Int)
  | jstr (s : String)
  | jarr (xs : JsonList)
  | jobj (fs : JsonFields)

inductive JsonList where
  | nil
  | cons (x : Jsonish) (xs : JsonList)

inductive JsonFields where
  | nil
  | cons (k : String) (v : Jsonish) (fs : JsonFields)
end

/-- Python `dict.get` on an object's fields (unique keys: first match). -/
def JsonFields.lookup : JsonFields → String → Option Jsonish
  | .nil, _ => none
  | .cons k v fs, key => if k = key then some v else fs.lookup key

/-- A single-quote character, written via its code point. -/
def sq : String := String.singleton (Char.ofNat 39)

mutual
/-- Python `repr` of a parsed JSON value (as used by `str` on containers). -/
def pyRepr : Jsonish → String
  | .jnull => "None"
  | .jbool true => "True"
  | .jbool false => "False"
  | .jnum n => toString n
  | .jstr s => sq ++ s ++ sq
  | .jarr xs => "[" ++ pyReprList xs ++ "]"
  | .jobj fs => "\x7b" ++ pyReprFields fs ++ "\x7d"

def pyReprList : JsonList → String
  | .nil => ""
  | .cons x .nil => pyRepr x
  | .cons x xs => pyRepr x ++ ", " ++ pyReprList xs

def pyReprFields : JsonFields → String
  | .nil => ""
  | .cons k v .nil => sq ++ k ++ sq ++ ": " ++ pyRepr v
  | .cons k v fs => sq ++ k ++ sq ++ ": " ++ pyRepr v ++ ", " ++ pyReprFields fs
end

/-- Python `str` of a parsed JSON value: the value itself for strings,
`True`/`False`/`None` for booleans and null, `repr` otherwise. -/
def pyStr : Jsonish → String
  | .jstr s => s
  | v => pyRepr v

mutual
/-- `json.dumps` of a parsed JSON value (string escaping not modelled; no
modelled property depends on it). -/
def jsonDumps : Jsonish → String
  | .jnull => "null"
  | .jbool true => "true"
  | .jbool false => "false"
  | .jnum n => toString n
  | .jstr s => "\"" ++ s ++ "\""
  | .jarr xs => "[" ++ jsonDumpsList xs ++ "]"
  | .jobj fs => "\x7b" ++ jsonDumpsFields fs ++ "\x7d"

def jsonDumpsList : JsonList → String
  | .nil => ""
  | .cons x .nil => jsonDumps x
  | .cons x xs => jsonDumps x ++ ", " ++ jsonDumpsList xs

def jsonDumpsFields : JsonFields → String
  | .nil => ""
  | .cons k v .nil => "\"" ++ k ++ "\": " ++ jsonDumps v
  | .cons k v fs => "\"" ++ k ++ "\": " ++ jsonDumps v ++ ", " ++ jsonDumpsFields fs
end

/-- Python truthiness of a parsed JSON value. -/
def jtruthy : Jsonish → Bool
  | .jnull => false
  | .jbool b => b
  | .jnum n => n ≠ 0
  | .jstr s => s ≠ ""
  | .jarr .nil => false
  | .jarr _ => true
  | .jobj .nil => false
  | .jobj _ => true

example : pyStr (Jsonish.jarr (.cons (.jnum 3) .nil)) = "[3]" := by decide
example : jtruthy (Jsonish.jstr "") = false := by decide

/-! ### Topic resolution (`_resolve_topic`, `_split_hierarchy`) -/

/-- Python `str.split(sep)` (single-character separator). -/
def splitOnCharAux (sep : Char) : List Char → List Char → List (List Char)
  | [], cur => [cur.reverse]
  | c :: rest, cur =>
      if c = sep then cur.reverse :: splitOnCharAux sep rest []
      else splitOnCharAux sep rest (c :: cur)

/-- Python `s.split(sep)` for a one-character separator. -/
def pySplit (sep : Char) (s : String) : List String :=
  (splitOnCharAux sep s.data []).map String.mk

example : pySplit '.' "a.b..c" = ["a", "b", "", "c"] := by decide

/-- `CampaignOrchestrator._split_hierarchy`: empty/absent value gives no
parts; split on `/` when present, else on `.`, dropping empty segments; at
least five parts are required and only the first five are kept. -/
def split_hierarchy (value : Option String) : List String :=
  match value with
  | none => []
  | some v =>
      if v = "" then []
      else
        let parts :=
          if v.data.contains '/' then
            (pySplit '/' v).filter (fun p => p ≠ "")
          else
            (pySplit '.' v).filter (fun p => p ≠ "")
        if 5 ≤ parts.length then parts.take 5 else []

/-- The hierarchy candidate `_resolve_topic` selects:
`metadata.get('service_hierarchy') or metadata.get('source')` with Python
truthiness, narrowed to a non-empty string, else the `source` entry of the
resolved headers. -/
def hierarchyString (metadata : JsonFields)
    (headers : List (String × String)) : Option String :=
  let hv0 : Option Jsonish :=
    match metadata.lookup "service_hierarchy" with
    | some v => if jtruthy v then some v else metadata.lookup "source"
    | none => metadata.lookup "source"
  match hv0 with
  | some (.jstr h) => if h = "" then headers.lookup "source" else some h
  | _ => headers.lookup "source"

/-- The `for key in (organization, …, service)` loop of `_resolve_topic`:
collect values while each is a non-empty string, stopping at the first
failure. -/
def collectFields (metadata : JsonFields) : List String → List String
  | [] => []
  | k :: ks =>
      match metadata.lookup k with
      | some (.jstr v) =>
          if v = "" then [] else v :: collectFields metadata ks
      | _ => []

/-- The explicit-topic check opening `_resolve_topic`: a `topic` metadata
entry that is a non-empty string. -/
def topicValue (metadata : JsonFields) : Option String :=
  match metadata.lookup "topic" with
  | some (.jstr t) => if t = "" then none else some t
  | _ => none

/-- The closing block of `_resolve_topic`: assemble the topic from the five
organization/facility/system/subsystem/service metadata fields, else fail. -/
def fiveFieldTopic (metadata : JsonFields) : Except String String :=
  let fields := collectFields metadata
    ["organization", "facility", "system", "subsystem", "service"]
  if fields.length = 5 then
    .ok (String.intercalate "/" (fields ++ ["response"]))
  else
    .error "Unable to resolve broker topic for campaign step"

/-- `CampaignOrchestrator._resolve_topic`. -/
def resolve_topic (metadata : JsonFields)
    (headers : List (String × String)) : Except String String :=
  match topicValue metadata with
  | some t => .ok t
  | none =>
      let parts := split_hierarchy (hierarchyString metadata headers)
      if parts ≠ [] then
        .ok (String.intercalate "/" (parts ++ ["response"]))
      else
        fiveFieldTopic metadata

/-- Modelled from the spec (claim C8's words): identical to
`split_hierarchy` except that the hierarchy must have EXACTLY five parts for
this branch to produce a topic. -/
def claimSplitHierarchy (value : Option String) : List String :=
  match value with
  | none => []
  | some v =>
      if v = "" then []
      else
        let parts :=
          if v.data.contains '/' then
            (pySplit '/' v).filter (fun p => p ≠ "")
          else
            (pySplit '.' v).filter (fun p => p ≠ "")
        if parts.length = 5 then parts else []

/-- Modelled from the spec (claim C8's words): `_resolve_topic` with the
exactly-five-parts hierarchy rule. -/
def claimResolveTopic (metadata : JsonFields)
    (headers : List (String × String)) : Except String String :=
  match topicValue metadata with
  | some t => .ok t
  | none =>
      let parts := claimSplitHierarchy (hierarchyString metadata headers)
      if parts ≠ [] then
        .ok (String.intercalate "/" (parts ++ ["response"]))
      else
        fiveFieldTopic metadata

/-- A six-segment hierarchy in task metadata, with no explicit topic and no
five-field fallback. -/
def sixPartMeta : JsonFields :=
  .cons "service_hierarchy" (.jstr "a.b.c.d.e.f") .nil

/-- C8 counterexample: on a hierarchy with six dotted parts, the code
truncates to the first five and produces a topic, while the claim (exactly
five parts, otherwise no topic from this branch, and here no metadata
fields either) predicts a resolution failure. -/
theorem c8_six_part_hierarchy_truncated :
    (resolve_topic sixPartMeta []).toOption = some "a/b/c/d/e/response" ∧
    (claimResolveTopic sixPartMeta []).toOption = none := by decide

/-- The raw split of a hierarchy string: on `/` when one is present, else on
`.`, with empty segments dropped (no five-part clamping). -/
def hierRawParts (v : String) : List String :=
  if v.data.contains '/' then
    (pySplit '/' v).filter (fun p => p ≠ "")
  else
    (pySplit '.' v).filter (fun p => p ≠ "")

theorem split_hierarchy_some (h : String) :
    split_hierarchy (some h) =
      if 5 ≤ (hierRawParts h).length then (hierRawParts h).take 5
      else [] := by
  by_cases he : h = ""
  · subst he
    decide
  · unfold split_hierarchy hierRawParts
    simp [he]

/-- C8 (amended): broker-topic resolution for a step behaves as follows.  An
explicit non-empty string `topic` field is returned as-is.  Otherwise, when a
hierarchy string is selected (metadata `service_hierarchy`, else `source`,
else the resolved headers' `source`), it is split on `/` if one is present
else on `.` (dropping empty segments); if this yields at least five parts,
the FIRST FIVE are joined with `/` and suffixed with `/response`; with fewer
than five parts, or with no hierarchy string at all, the five metadata
fields organization/facility/system/subsystem/service are assembled the same
way when all are non-empty strings; otherwise resolution fails with the
fixed error message. -/
theorem c8_amended_resolve_topic_cases (m : JsonFields)
    (headers : List (String × String)) :
    (∀ t, topicValue m = some t → resolve_topic m headers = .ok t)
    ∧ (topicValue m = none →
        ∀ h, hierarchyString m headers = some h →
          (5 ≤ (hierRawParts h).length →
            resolve_topic m headers =
              .ok (String.intercalate "/"
                ((hierRawParts h).take 5 ++ ["response"])))
          ∧ ((hierRawParts h).length < 5 →
            resolve_topic m headers = fiveFieldTopic m))
    ∧ (topicValue m = none → hierarchyString m headers = none →
        resolve_topic m headers = fiveFieldTopic m)
    ∧ (∀ err, resolve_topic m headers = .error err →
        err = "Unable to resolve broker topic for campaign step") := by
  refine ⟨?_, ?_, ?_, ?_⟩
  · intro t ht
    unfold resolve_topic
    rw [ht]
  · intro ht h hh
    constructor
    · intro hlen
      unfold resolve_topic
      rw [ht, hh, split_hierarchy_some, if_pos hlen]
      have hne : (hierRawParts h).take 5 ≠ [] := by
        intro hcon
        have hlen0 : ([] : List String).length =
            min 5 (hierRawParts h).length := by
          rw [← hcon]
          exact List.length_take 5 (hierRawParts h)
        simp only [List.length_nil] at hlen0
        omega
      simp [hne]
    · intro hlen
      unfold resolve_topic
      rw [ht, hh, split_hierarchy_some]
      have hnot : ¬ (5 ≤ (hierRawParts h).length) := by omega
      rw [if_neg hnot]
      simp
  · intro ht hh
    unfold resolve_topic
    rw [ht, hh]
    simp [split_hierarchy]
  · intro err herr
    unfold resolve_topic at herr
    cases htv : topicValue m with
    | some t => rw [htv] at herr; cases herr
    | none =>
        rw [htv] at herr
        by_cases hp : split_hierarchy (hierarchyString m headers) = []
        · rw [if_neg (by simp [hp])] at herr
          unfold fiveFieldTopic at herr
          by_cases hf : (collectFields m ["organization", "facility",
              "system", "subsystem", "service"]).length = 5
          · rw [if_pos hf] at herr; cases herr
          · rw [if_neg hf] at herr
            injection herr with hmsg
            exact hmsg.symm
        · rw [if_pos (by simp [hp])] at herr
          cases herr

/-- Metadata with an explicit topic for the C8 witness. -/
def topicMeta : JsonFields := .cons "topic" (.jstr "x/y/response") .nil

/-- Witness for the amended C8 theorem: an explicit non-empty topic field is
returned as-is. -/
theorem c8_amended_resolve_topic_cases_witness :
    topicValue topicMeta = some "x/y/response" ∧
    resolve_topic topicMeta [] = .ok "x/y/response" :=
  ⟨by decide,
   (c8_amended_resolve_topic_cases topicMeta []).1 "x/y/response" (by decide)⟩

/-! ### Workflow net (`campaign_to_petri_net.py`)

Places and transitions are modelled as an inductive type standing for the
generated snakes names (`Ready`, `tg_<g>_pending`, `task_<g>_<t>_complete`,
`activate_<g>`, …); the constructor-based representation is the same data
provided the generated names do not collide, which the nodup hypotheses of
the amended C5 theorem guarantee.  All tokens are the literal `Value(1)`, so
a marking is a token count per place; a transition is enabled when each of
its input places holds a token, and firing removes one token per input arc
and adds one per output arc, exactly the snakes semantics used by the
converter. -/

inductive PNPlace where
  | ready
  | completeP
  | tgPending (g : String)
  | tgRunning (g : String)
  | tgComplete (g : String)
  | taskComplete (g t : String)
deriving DecidableEq, Repr

inductive PNTrans where
  | activate (g : String)
  | completeT (g : String)
  | taskT (g t : String)
  | finalize
deriving DecidableEq, Repr

/-- `self.task_group_map.get(gid)`: the dict comprehension keeps the LAST
group with a given id. -/
def findGroup (c : Campaign) (gid : String) : Option TaskGroup :=
  (c.task_groups.filter (fun g => g.id = gid)).getLast?

/-- The task of a group with the given id (unique under the nodup
hypotheses; with duplicate ids snakes raises at net construction). -/
def findTask (tg : TaskGroup) (tid : String) : Option Task :=
  (tg.tasks.filter (fun t => t.id = tid)).getLast?

/-- Keep the first occurrence of each key, as Python dict insertion order. -/
def dedupFirst : List String → List String → List String
  | [], _ => []
  | x :: xs, seen =>
      if x ∈ seen then dedupFirst xs seen else x :: dedupFirst xs (x :: seen)

/-- The keys of `task_group_map`, in insertion order. -/
def tgIds (c : Campaign) : List String :=
  dedupFirst (c.task_groups.map (fun g => g.id)) []

/-- The tasks of the group stored under a key of `task_group_map`. -/
def groupTasks (c : Campaign) (gid : String) : List Task :=
  match findGroup c gid with
  | some tg => tg.tasks
  | none => []

/-- `_create_transitions`: per group an activate and a complete transition
and one transition per task, plus the single `finalize_campaign`. -/
def netTransitions (c : Campaign) : List PNTrans :=
  ((tgIds c).map (fun gid =>
    PNTrans.activate gid :: PNTrans.completeT gid ::
      (groupTasks c gid).map (fun t => PNTrans.taskT gid t.id))).flatten
    ++ [.finalize]

/-- Input places per transition (`_create_arcs`): an activate consumes
`Ready` when the group has no dependencies, else one token from each
dependency's complete place; a task consumes the group's pending token and
each intra-group dependency's complete place; a group's complete consumes
the pending token and every task-complete place; finalize consumes every
group-complete place. -/
def preT (c : Campaign) : PNTrans → List PNPlace
  | .activate g =>
      match findGroup c g with
      | some tg =>
          if tg.group_dependencies = [] then [.ready]
          else tg.group_dependencies.map (fun d => .tgComplete d)
      | none => []
  | .completeT g =>
      match findGroup c g with
      | some tg =>
          .tgPending g :: tg.tasks.map (fun t => .taskComplete g t.id)
      | none => []
  | .taskT g t =>
      match findGroup c g with
      | some tg =>
          match findTask tg t with
          | some task =>
              .tgPending g ::
                task.task_dependencies.map (fun d => .taskComplete g d)
          | none => []
      | none => []
  | .finalize => (tgIds c).map (fun g => .tgComplete g)

/-- Output places per transition (`_create_arcs`): read arcs return the
consumed token; an activate produces the pending token (dependency places
are returned, `Ready` is NOT); a task returns its read arcs and produces its
complete place; a group's complete produces the group-complete place;
finalize produces `Complete`. -/
def postT (c : Campaign) : PNTrans → List PNPlace
  | .activate g =>
      match findGroup c g with
      | some tg =>
          (if tg.group_dependencies = [] then []
           else tg.group_dependencies.map (fun d => .tgComplete d))
            ++ [.tgPending g]
      | none => []
  | .completeT g => [.tgComplete g]
  | .taskT g t =>
      match findGroup c g with
      | some tg =>
          match findTask tg t with
          | some task =>
              (.tgPending g ::
                task.task_dependencies.map (fun d => .taskComplete g d))
                ++ [.taskComplete g t]
          | none => []
      | none => []
  | .finalize => [.completeP]

/-- A marking: token count per place. -/
def Marking : Type := PNPlace → Nat

/-- `_initialize_tokens`: one token in `Ready`, zero elsewhere. -/
def initialMarking : Marking := fun p => if p = .ready then 1 else 0

/-- snakes enablement: every input place holds a token. -/
def enabledT (c : Campaign) (t : PNTrans) (m : Marking) : Bool :=
  (preT c t).all (fun p => decide (1 ≤ m p))

/-- snakes firing: remove one token per input arc, add one per output arc. -/
def fireT (c : Campaign) (t : PNTrans) (m : Marking) : Marking :=
  fun p => m p - (preT c t).count p + (postT c t).count p

/-- Fire a sequence of transitions, requiring each to be enabled. -/
def fireSeq (c : Campaign) : Marking → List PNTrans → Option Marking
  | m, [] => some m
  | m, t :: ts => if enabledT c t m then fireSeq c (fireT c t m) ts else none

/-- The canonical execution sequence of claim C5: per task group in
declaration order its activate, its task transitions in order, then its
complete; finally `finalize_campaign`. -/
def canonicalSeq (c : Campaign) : List PNTrans :=
  (c.task_groups.map (fun g =>
    PNTrans.activate g.id ::
      (g.tasks.map (fun t => PNTrans.taskT g.id t.id)
        ++ [PNTrans.completeT g.id]))).flatten
    ++ [.finalize]

/-- Two independent (dependency-free) task groups. -/
def twoIndepCampaign : Campaign :=
  { id := "c5",
    task_groups :=
      [{ id := "a", group_dependencies := [], tasks := [] },
       { id := "b", group_dependencies := [], tasks := [] }] }

/-- C5 counterexample: for a campaign of two independent task groups the
canonical execution sequence is NOT admissible — the single `Ready` token is
consumed (and not returned) by the first group's activate, so after the
first group completes the second group's activate transition is no longer
enabled and the canonical run fails. -/
theorem c5_two_independent_groups_cannot_both_activate :
    (fireSeq twoIndepCampaign initialMarking
        (canonicalSeq twoIndepCampaign)).isSome = false ∧
    (fireSeq twoIndepCampaign initialMarking
        [.activate "a", .completeT "a"]).map
      (fun m => enabledT twoIndepCampaign (.activate "b") m) = some false := by
  constructor
  · rfl
  · rfl

/-! ### Well-structured campaigns and run infrastructure for C5 -/

/-- Group chain condition: the first group has no dependencies; every later
group has a nonempty, duplicate-free dependency list naming only
earlier-declared groups. -/
def groupsChainOK : List String → List TaskGroup → Bool
  | prior, [] => prior = prior && true
  | prior, g :: gs =>
      (if prior.isEmpty then decide (g.group_dependencies = [])
       else decide (g.group_dependencies ≠ []) &&
            decide g.group_dependencies.Nodup &&
            g.group_dependencies.all (fun d => decide (d ∈ prior)))
      && groupsChainOK (prior ++ [g.id]) gs

/-- Task chain condition within a group: each task's dependency list is
duplicate-free and names only earlier-declared tasks of the group. -/
def tasksChainOK : List String → List Task → Bool
  | _, [] => true
  | prior, t :: ts =>
      decide t.task_dependencies.Nodup &&
      t.task_dependencies.all (fun d => decide (d ∈ prior)) &&
      tasksChainOK (prior ++ [t.id]) ts

/-- Hypotheses of the amended C5 theorem: at least one task group, exactly
one of them (the first) independent, declaration order topological, and all
the id/dependency lists duplicate-free (so snakes builds the net without
name or arc collisions). -/
def wellStructured (c : Campaign) : Bool :=
  decide (c.task_groups ≠ []) &&
  decide ((c.task_groups.map (fun g => g.id)).Nodup) &&
  groupsChainOK [] c.task_groups &&
  c.task_groups.all (fun g =>
    decide ((g.tasks.map (fun t => t.id)).Nodup) && tasksChainOK [] g.tasks)

/-- Marking between group blocks: one token in each completed group's
complete place. -/
def doneMark (doneG : List String) : Marking :=
  fun p =>
    match p with
    | .tgComplete g => if g ∈ doneG then 1 else 0
    | _ => 0

/-- Marking inside group `gid`'s block: completed groups' complete places,
the pending token of `gid`, and the complete places of its already-fired
tasks. -/
def midMark (doneG : List String) (gid : String) (doneT : List String) :
    Marking :=
  fun p =>
    match p with
    | .tgComplete g => if g ∈ doneG then 1 else 0
    | .tgPending g => if g = gid then 1 else 0
    | .taskComplete g t => if g = gid ∧ t ∈ doneT then 1 else 0
    | _ => 0

theorem fireSeq_append (c : Campaign) (m : Marking) (l1 l2 : List PNTrans) :
    fireSeq c m (l1 ++ l2) =
      (fireSeq c m l1).bind (fun m' => fireSeq c m' l2) := by
  induction l1 generalizing m with
  | nil => simp [fireSeq]
  | cons t ts ih =>
      simp only [List.cons_append, fireSeq]
      by_cases he : enabledT c t m
      · simp only [he, if_true]
        exact ih _
      · simp only [he, Bool.false_eq_true, if_false, Option.none_bind]

theorem enabledT_iff (c : Campaign) (t : PNTrans) (m : Marking) :
    enabledT c t m = true ↔ ∀ p ∈ preT c t, 1 ≤ m p := by
  simp [enabledT, List.all_eq_true]

theorem filter_key_unique {α : Type} (key : α → String) (l : List α) (x : α)
    (hmem : x ∈ l) (hnodup : (l.map key).Nodup) :
    l.filter (fun y => key y = key x) = [x] := by
  induction l with
  | nil => cases hmem
  | cons y ys ih =>
      simp only [List.map_cons, List.nodup_cons] at hnodup
      rcases List.mem_cons.mp hmem with hx | hx
      · subst hx
        have hrest : ys.filter (fun z => key z = key x) = [] := by
          apply List.filter_eq_nil_iff.mpr
          intro z hz
          simp only [decide_eq_true_eq]
          intro hk
          exact hnodup.1 (hk ▸ List.mem_map_of_mem key hz)
        simp [List.filter_cons, hrest]
      · have hky : ¬ (key y = key x) := by
          intro hk
          exact hnodup.1 (hk ▸ List.mem_map_of_mem key hx)
        simp [List.filter_cons, hky, ih hx hnodup.2]

theorem findGroup_self (c : Campaign) (g : TaskGroup)
    (hmem : g ∈ c.task_groups)
    (hnodup : (c.task_groups.map (fun g => g.id)).Nodup) :
    findGroup c g.id = some g := by
  unfold findGroup
  rw [filter_key_unique (fun g => g.id) c.task_groups g hmem hnodup]
  rfl

theorem findTask_self (tg : TaskGroup) (t : Task) (hmem : t ∈ tg.tasks)
    (hnodup : (tg.tasks.map (fun t => t.id)).Nodup) :
    findTask tg t.id = some t := by
  unfold findTask
  rw [filter_key_unique (fun t => t.id) tg.tasks t hmem hnodup]
  rfl

theorem count_map_tgComplete (ds : List String) (g : String) :
    (ds.map (fun d => PNPlace.tgComplete d)).count (.tgComplete g) =
      ds.count g := by
  apply List.count_map_of_injective
  intro a b hab
  injection hab

theorem count_map_taskComplete (ds : List String) (gid t : String) :
    (ds.map (fun d => PNPlace.taskComplete gid d)).count
      (.taskComplete gid t) = ds.count t := by
  apply List.count_map_of_injective
  intro a b hab
  injection hab

theorem count_map_tgComplete_ne (ds : List String) (p : PNPlace)
    (hp : ∀ g, p ≠ .tgComplete g) :
    (ds.map (fun d => PNPlace.tgComplete d)).count p = 0 := by
  rw [List.count_eq_zero]
  intro hmem
  rcases List.mem_map.mp hmem with ⟨d, _, hd⟩
  exact hp d hd.symm

theorem count_map_taskComplete_ne (ds : List String) (gid : String)
    (p : PNPlace) (hp : ∀ t, p ≠ .taskComplete gid t) :
    (ds.map (fun d => PNPlace.taskComplete gid d)).count p = 0 := by
  rw [List.count_eq_zero]
  intro hmem
  rcases List.mem_map.mp hmem with ⟨d, _, hd⟩
  exact hp d hd.symm

theorem count_tasks_taskComplete (ts : List Task) (gid : String)
    (t : String) :
    ((ts.map (fun t => PNPlace.taskComplete gid t.id)).count
        (.taskComplete gid t)) = (ts.map (fun t => t.id)).count t := by
  have hfun : (fun t : Task => PNPlace.taskComplete gid t.id) =
      ((fun d => PNPlace.taskComplete gid d) ∘ fun t : Task => t.id) := by
    funext x
    rfl
  have hmap : ts.map (fun t => PNPlace.taskComplete gid t.id) =
      (ts.map (fun t => t.id)).map (fun d => PNPlace.taskComplete gid d) := by
    rw [List.map_map, ← hfun]
  rw [hmap]
  exact count_map_taskComplete (ts.map (fun t => t.id)) gid t

theorem count_tasks_taskComplete_ne (ts : List Task) (gid : String)
    (p : PNPlace) (hp : ∀ t, p ≠ .taskComplete gid t) :
    (ts.map (fun t => PNPlace.taskComplete gid t.id)).count p = 0 := by
  have hfun : (fun t : Task => PNPlace.taskComplete gid t.id) =
      ((fun d => PNPlace.taskComplete gid d) ∘ fun t : Task => t.id) := by
    funext x
    rfl
  have hmap : ts.map (fun t => PNPlace.taskComplete gid t.id) =
      (ts.map (fun t => t.id)).map (fun d => PNPlace.taskComplete gid d) := by
    rw [List.map_map, ← hfun]
  rw [hmap]
  exact count_map_taskComplete_ne (ts.map (fun t => t.id)) gid p hp

/-- When every output arc returns an input token plus some extras (read-arc
transitions), firing just adds the extra tokens. -/
theorem fireT_add_of_post_append (c : Campaign) (t : PNTrans) (m : Marking)
    (extra : List PNPlace)
    (hpost : postT c t = preT c t ++ extra)
    (hle : ∀ p, (preT c t).count p ≤ m p) :
    fireT c t m = fun p => m p + extra.count p := by
  funext p
  unfold fireT
  rw [hpost, List.count_append]
  have := hle p
  omega

theorem midMark_pending (doneG : List String) (gid : String)
    (doneT : List String) :
    midMark doneG gid doneT (.tgPending gid) = 1 := by
  simp [midMark]

theorem midMark_taskComplete_done (doneG : List String) (gid : String)
    (doneT : List String) (d : String) (hd : d ∈ doneT) :
    midMark doneG gid doneT (.taskComplete gid d) = 1 := by
  simp [midMark, hd]

theorem count_le_of_nodup_ge_one (l : List PNPlace) (m : Marking)
    (hnd : l.Nodup) (hmem : ∀ p ∈ l, 1 ≤ m p) : ∀ p, l.count p ≤ m p := by
  intro p
  by_cases hp : p ∈ l
  · have h1 : l.count p = 1 := List.count_eq_one_of_mem hnd hp
    rw [h1]
    exact hmem p hp
  · rw [List.count_eq_zero.mpr hp]
    omega

theorem fire_tasks (c : Campaign) (gid : String) (tg0 : TaskGroup)
    (hg : findGroup c gid = some tg0)
    (hids : (tg0.tasks.map (fun t => t.id)).Nodup)
    (doneG : List String)
    (ts : List Task) (doneT : List String)
    (hsub : ∀ t ∈ ts, t ∈ tg0.tasks)
    (hchain : tasksChainOK doneT ts = true)
    (hfresh : (doneT ++ ts.map (fun t => t.id)).Nodup) :
    fireSeq c (midMark doneG gid doneT)
        (ts.map (fun t => PNTrans.taskT gid t.id)) =
      some (midMark doneG gid (doneT ++ ts.map (fun t => t.id))) := by
  induction ts generalizing doneT with
  | nil => simp [fireSeq]
  | cons t rest ih =>
      simp only [tasksChainOK, Bool.and_eq_true, decide_eq_true_eq,
        List.all_eq_true] at hchain
      obtain ⟨⟨hnd, hdeps⟩, hrest⟩ := hchain
      have hdeps' : ∀ d ∈ t.task_dependencies, d ∈ doneT := hdeps
      have hmemt : t ∈ tg0.tasks := hsub t (List.mem_cons_self t rest)
      have hfresh' : (doneT ++ (t.id :: rest.map (fun t => t.id))).Nodup := by
        simpa using hfresh
      have htid_not_done : t.id ∉ doneT := by
        intro hcon
        have hsplit := List.nodup_append.mp hfresh'
        exact hsplit.2.2 hcon (List.mem_cons_self _ _)
      have hft : findTask tg0 t.id = some t := findTask_self tg0 t hmemt hids
      have hpre : preT c (.taskT gid t.id) =
          .tgPending gid ::
            t.task_dependencies.map (fun d => .taskComplete gid d) := by
        simp only [preT, hg, hft]
      have hpost : postT c (.taskT gid t.id) =
          preT c (.taskT gid t.id) ++ [.taskComplete gid t.id] := by
        simp only [postT, preT, hg, hft]
      have hge : ∀ p ∈ preT c (.taskT gid t.id),
          1 ≤ midMark doneG gid doneT p := by
        rw [hpre]
        intro p hp
        rcases List.mem_cons.mp hp with rfl | hp
        · rw [midMark_pending]
        · rcases List.mem_map.mp hp with ⟨d, hd, rfl⟩
          rw [midMark_taskComplete_done _ _ _ _ (hdeps' d hd)]
      have hen : enabledT c (.taskT gid t.id) (midMark doneG gid doneT) =
          true := (enabledT_iff _ _ _).mpr hge
      have hprend : (preT c (.taskT gid t.id)).Nodup := by
        rw [hpre]
        refine List.Nodup.cons ?_ ?_
        · intro hcon
          rcases List.mem_map.mp hcon with ⟨d, _, hd⟩
          simp at hd
        · exact hnd.map (fun a b hab => by injection hab)
      have hle := count_le_of_nodup_ge_one _ _ hprend hge
      have hfire := fireT_add_of_post_append c (.taskT gid t.id)
        (midMark doneG gid doneT) [.taskComplete gid t.id] hpost hle
      have hnew : (fun p => midMark doneG gid doneT p +
          List.count p [PNPlace.taskComplete gid t.id]) =
          midMark doneG gid (doneT ++ [t.id]) := by
        funext p
        cases p with
        | taskComplete g' t' =>
            by_cases hgg : g' = gid
            · subst hgg
              by_cases htt : t' = t.id
              · subst htt
                simp [midMark, htid_not_done, List.count_cons]
              · simp [midMark, htt, List.count_cons, List.mem_append]
            · simp [midMark, hgg, List.count_cons]
        | ready => simp [midMark, List.count_cons]
        | completeP => simp [midMark, List.count_cons]
        | tgPending g' => simp [midMark, List.count_cons]
        | tgRunning g' => simp [midMark, List.count_cons]
        | tgComplete g' => simp [midMark, List.count_cons]
      simp only [List.map_cons]
      rw [show fireSeq c (midMark doneG gid doneT)
          (PNTrans.taskT gid t.id :: rest.map (fun t => PNTrans.taskT gid t.id)) =
          if enabledT c (.taskT gid t.id) (midMark doneG gid doneT) then
            fireSeq c (fireT c (.taskT gid t.id) (midMark doneG gid doneT))
              (rest.map (fun t => PNTrans.taskT gid t.id))
          else none from rfl]
      rw [if_pos hen, hfire, hnew]
      have hres := ih (doneT ++ [t.id])
        (fun x hx => hsub x (List.mem_cons_of_mem t hx)) hrest
        (by rw [List.append_assoc]; simpa using hfresh')
      rw [hres]
      rw [List.append_assoc]
      rfl

/-- The canonical transition block of one task group: activate, the task
transitions in declaration order, then complete. -/
def blockSeq (g : TaskGroup) : List PNTrans :=
  PNTrans.activate g.id ::
    (g.tasks.map (fun t => PNTrans.taskT g.id t.id)
      ++ [PNTrans.completeT g.id])

theorem fire_group_block (c : Campaign) (g : TaskGroup)
    (doneG : List String) (m : Marking)
    (hg : findGroup c g.id = some g)
    (htids : (g.tasks.map (fun t => t.id)).Nodup)
    (htchain : tasksChainOK [] g.tasks = true)
    (hgnotdone : g.id ∉ doneG)
    (hact : (g.group_dependencies = [] ∧ doneG = [] ∧ m = initialMarking) ∨
      (g.group_dependencies ≠ [] ∧ g.group_dependencies.Nodup ∧
        (∀ d ∈ g.group_dependencies, d ∈ doneG) ∧ m = doneMark doneG)) :
    fireSeq c m (blockSeq g) = some (doneMark (doneG ++ [g.id])) := by
  have hmid : enabledT c (.activate g.id) m = true ∧
      fireT c (.activate g.id) m = midMark doneG g.id [] := by
    rcases hact with ⟨hdep, hdg, hm⟩ | ⟨hdep, hdnd, hdsub, hm⟩
    · subst hm
      subst hdg
      have hpreA : preT c (.activate g.id) = [.ready] := by
        simp only [preT, hg, hdep, if_pos]
      have hpostA : postT c (.activate g.id) = [.tgPending g.id] := by
        simp only [postT, hg, hdep, if_pos]
        rfl
      constructor
      · rw [enabledT_iff, hpreA]
        intro p hp
        rcases List.mem_singleton.mp hp with rfl
        simp [initialMarking]
      · funext p
        unfold fireT
        rw [hpreA, hpostA]
        cases p with
        | ready => simp [initialMarking, midMark, List.count_cons]
        | completeP => simp [initialMarking, midMark, List.count_cons]
        | tgPending g' =>
            by_cases hgg : g' = g.id
            · subst hgg
              simp [initialMarking, midMark, List.count_cons]
            · simp [initialMarking, midMark, hgg, List.count_cons,
                Ne.symm hgg]
        | tgRunning g' => simp [initialMarking, midMark, List.count_cons]
        | tgComplete g' => simp [initialMarking, midMark, List.count_cons]
        | taskComplete g' t' =>
            simp [initialMarking, midMark, List.count_cons]
    · subst hm
      have hpreA : preT c (.activate g.id) =
          g.group_dependencies.map (fun d => .tgComplete d) := by
        simp only [preT, hg, hdep, if_neg]
        simp [hdep]
      have hpostA : postT c (.activate g.id) =
          preT c (.activate g.id) ++ [.tgPending g.id] := by
        simp only [postT, preT, hg]
        simp [hdep]
      have hge : ∀ p ∈ preT c (.activate g.id), 1 ≤ doneMark doneG p := by
        rw [hpreA]
        intro p hp
        rcases List.mem_map.mp hp with ⟨d, hd, rfl⟩
        simp [doneMark, hdsub d hd]
      have hen : enabledT c (.activate g.id) (doneMark doneG) = true :=
        (enabledT_iff _ _ _).mpr hge
      have hprend : (preT c (.activate g.id)).Nodup := by
        rw [hpreA]
        exact hdnd.map (fun a b hab => by injection hab)
      have hle := count_le_of_nodup_ge_one _ _ hprend hge
      have hfire := fireT_add_of_post_append c (.activate g.id)
        (doneMark doneG) [.tgPending g.id] hpostA hle
      refine ⟨hen, ?_⟩
      rw [hfire]
      funext p
      cases p with
      | ready => simp [doneMark, midMark, List.count_cons]
      | completeP => simp [doneMark, midMark, List.count_cons]
      | tgPending g' =>
          by_cases hgg : g' = g.id
          · subst hgg
            simp [doneMark, midMark, List.count_cons]
          · simp [doneMark, midMark, hgg, List.count_cons, Ne.symm hgg]
      | tgRunning g' => simp [doneMark, midMark, List.count_cons]
      | tgComplete g' => simp [doneMark, midMark, List.count_cons]
      | taskComplete g' t' => simp [doneMark, midMark, List.count_cons]
  obtain ⟨henA, hfireA⟩ := hmid
  have htasks := fire_tasks c g.id g hg htids doneG g.tasks []
    (fun t ht => ht) (by simpa using htchain) (by simpa using htids)
  have hpreC : preT c (.completeT g.id) =
      .tgPending g.id :: g.tasks.map (fun t => .taskComplete g.id t.id) := by
    simp only [preT, hg]
  have hpostC : postT c (.completeT g.id) = [.tgComplete g.id] := rfl
  have hgeC : ∀ p ∈ preT c (.completeT g.id),
      1 ≤ midMark doneG g.id ([] ++ g.tasks.map (fun t => t.id)) p := by
    rw [hpreC]
    intro p hp
    rcases List.mem_cons.mp hp with rfl | hp
    · rw [midMark_pending]
    · rcases List.mem_map.mp hp with ⟨t, ht, rfl⟩
      have hmem2 : t.id ∈ ([] : List String)
          ++ g.tasks.map (fun t => t.id) := by
        simp
        exact ⟨t, ht, rfl⟩
      rw [midMark_taskComplete_done _ _ _ _ hmem2]
  have henC : enabledT c (.completeT g.id)
      (midMark doneG g.id ([] ++ g.tasks.map (fun t => t.id))) = true :=
    (enabledT_iff _ _ _).mpr hgeC
  have hfireC : fireT c (.completeT g.id)
      (midMark doneG g.id ([] ++ g.tasks.map (fun t => t.id))) =
      doneMark (doneG ++ [g.id]) := by
    funext p
    unfold fireT
    rw [hpreC, hpostC]
    cases p with
    | ready => simp [midMark, doneMark, List.count_cons,
        count_tasks_taskComplete_ne]
    | completeP => simp [midMark, doneMark, List.count_cons,
        count_tasks_taskComplete_ne]
    | tgPending g' =>
        by_cases hgg : g' = g.id
        · subst hgg
          simp [midMark, doneMark, List.count_cons,
            count_tasks_taskComplete_ne]
        · simp [midMark, doneMark, hgg, Ne.symm hgg, List.count_cons,
            count_tasks_taskComplete_ne]
    | tgRunning g' => simp [midMark, doneMark, List.count_cons,
        count_tasks_taskComplete_ne]
    | tgComplete g' =>
        by_cases hgg : g' = g.id
        · subst hgg
          simp [midMark, doneMark, hgnotdone, List.count_cons,
            count_tasks_taskComplete_ne]
        · simp [midMark, doneMark, hgg, Ne.symm hgg, List.count_cons,
            count_tasks_taskComplete_ne, List.mem_append]
    | taskComplete g' t' =>
        by_cases hgg : g' = g.id
        · subst hgg
          by_cases htmem : t' ∈ g.tasks.map (fun t => t.id)
          · have hcount : (g.tasks.map
                (fun t => PNPlace.taskComplete g.id t.id)).count
                (.taskComplete g.id t') = 1 := by
              rw [count_tasks_taskComplete]
              exact List.count_eq_one_of_mem htids htmem
            simp [midMark, doneMark, htmem, List.count_cons, hcount]
          · have hcount : (g.tasks.map
                (fun t => PNPlace.taskComplete g.id t.id)).count
                (.taskComplete g.id t') = 0 := by
              rw [count_tasks_taskComplete]
              exact List.count_eq_zero.mpr htmem
            simp [midMark, doneMark, htmem, List.count_cons, hcount]
        · simp [midMark, doneMark, hgg, List.count_cons,
            count_tasks_taskComplete_ne, fun t => (Ne.symm hgg : ¬ g.id = g')]
  show fireSeq c m (.activate g.id ::
      (g.tasks.map (fun t => PNTrans.taskT g.id t.id)
        ++ [PNTrans.completeT g.id])) = _
  rw [show fireSeq c m (.activate g.id ::
      (g.tasks.map (fun t => PNTrans.taskT g.id t.id)
        ++ [PNTrans.completeT g.id])) =
      if enabledT c (.activate g.id) m then
        fireSeq c (fireT c (.activate g.id) m)
          (g.tasks.map (fun t => PNTrans.taskT g.id t.id)
            ++ [PNTrans.completeT g.id])
      else none from rfl]
  rw [if_pos henA, hfireA, fireSeq_append]
  rw [show midMark doneG g.id [] = midMark doneG g.id ([] : List String)
    from rfl]
  rw [htasks]
  show fireSeq c _ [PNTrans.completeT g.id] = _
  rw [show fireSeq c (midMark doneG g.id ([] ++ g.tasks.map (fun t => t.id)))
      [PNTrans.completeT g.id] =
      if enabledT c (.completeT g.id)
          (midMark doneG g.id ([] ++ g.tasks.map (fun t => t.id))) then
        fireSeq c (fireT c (.completeT g.id)
          (midMark doneG g.id ([] ++ g.tasks.map (fun t => t.id)))) []
      else none from rfl]
  rw [if_pos henC, hfireC]
  rfl

theorem fire_rest_groups (c : Campaign) (gs : List TaskGroup)
    (doneG : List String) (hne : doneG ≠ [])
    (hfindall : ∀ g ∈ gs, findGroup c g.id = some g)
    (htasksall : ∀ g ∈ gs, (g.tasks.map (fun t => t.id)).Nodup ∧
      tasksChainOK [] g.tasks = true)
    (hchain : groupsChainOK doneG gs = true)
    (hfreshG : (doneG ++ gs.map (fun g => g.id)).Nodup) :
    fireSeq c (doneMark doneG) ((gs.map blockSeq).flatten) =
      some (doneMark (doneG ++ gs.map (fun g => g.id))) := by
  induction gs generalizing doneG with
  | nil => simp [fireSeq]
  | cons g rest ih =>
      have hemp : doneG.isEmpty = false := by
        cases doneG with
        | nil => exact absurd rfl hne
        | cons x xs => rfl
      simp only [groupsChainOK, hemp, Bool.and_eq_true, decide_eq_true_eq,
        List.all_eq_true, if_false, Bool.false_eq_true] at hchain
      obtain ⟨⟨⟨hdne, hdnd⟩, hdsub⟩, hrest⟩ := hchain
      have hfresh' : (doneG ++ (g.id :: rest.map (fun g => g.id))).Nodup := by
        simpa using hfreshG
      have hgnotdone : g.id ∉ doneG := by
        intro hcon
        have hsplit := List.nodup_append.mp hfresh'
        exact hsplit.2.2 hcon (List.mem_cons_self _ _)
      have hblock := fire_group_block c g doneG (doneMark doneG)
        (hfindall g (List.mem_cons_self g rest))
        (htasksall g (List.mem_cons_self g rest)).1
        (htasksall g (List.mem_cons_self g rest)).2
        hgnotdone
        (Or.inr ⟨hdne, hdnd, hdsub, rfl⟩)
      simp only [List.map_cons, List.flatten_cons]
      rw [fireSeq_append, hblock]
      have hres := ih (doneG ++ [g.id]) (by simp)
        (fun x hx => hfindall x (List.mem_cons_of_mem g hx))
        (fun x hx => htasksall x (List.mem_cons_of_mem g hx))
        hrest
        (by rw [List.append_assoc]; simpa using hfresh')
      show fireSeq c (doneMark (doneG ++ [g.id])) _ = _
      rw [hres, List.append_assoc]
      rfl

/-- The marking claimed after the canonical run: one token in `Complete`. -/
def finalMark : Marking := fun p => if p = PNPlace.completeP then 1 else 0

theorem dedupFirst_eq_self (l : List String) (seen : List String)
    (hnd : l.Nodup) (hdisj : ∀ x ∈ l, x ∉ seen) : dedupFirst l seen = l := by
  induction l generalizing seen with
  | nil => rfl
  | cons x xs ih =>
      have hx : x ∉ seen := hdisj x (List.mem_cons_self x xs)
      simp only [List.nodup_cons] at hnd
      unfold dedupFirst
      rw [if_neg hx, ih (x :: seen) hnd.2]
      intro y hy
      intro hcon
      rcases List.mem_cons.mp hcon with rfl | hcon
      · exact hnd.1 hy
      · exact hdisj y (List.mem_cons_of_mem x hy) hcon

theorem dedupFirst_subset (l : List String) (seen : List String) :
    ∀ x ∈ dedupFirst l seen, x ∈ l := by
  induction l generalizing seen with
  | nil => intro x hx; cases hx
  | cons y ys ih =>
      intro x hx
      unfold dedupFirst at hx
      by_cases hy : y ∈ seen
      · rw [if_pos hy] at hx
        exact List.mem_cons_of_mem y (ih seen x hx)
      · rw [if_neg hy] at hx
        rcases List.mem_cons.mp hx with rfl | hx
        · exact List.mem_cons_self x ys
        · exact List.mem_cons_of_mem y (ih (y :: seen) x hx)

theorem tgIds_eq_of_nodup (c : Campaign)
    (hnd : (c.task_groups.map (fun g => g.id)).Nodup) :
    tgIds c = c.task_groups.map (fun g => g.id) := by
  unfold tgIds
  exact dedupFirst_eq_self _ [] hnd (fun x _ hcon => by cases hcon)

theorem fire_finalize (c : Campaign)
    (hnd : (c.task_groups.map (fun g => g.id)).Nodup) :
    fireSeq c (doneMark (c.task_groups.map (fun g => g.id)))
      [PNTrans.finalize] = some finalMark := by
  have hpreF : preT c .finalize =
      (c.task_groups.map (fun g => g.id)).map
        (fun g => PNPlace.tgComplete g) := by
    simp only [preT, tgIds_eq_of_nodup c hnd]
  have hpostF : postT c .finalize = [.completeP] := rfl
  have hge : ∀ p ∈ preT c .finalize,
      1 ≤ doneMark (c.task_groups.map (fun g => g.id)) p := by
    rw [hpreF]
    intro p hp
    rcases List.mem_map.mp hp with ⟨g, hg, rfl⟩
    simp [doneMark, hg]
  have hen : enabledT c .finalize
      (doneMark (c.task_groups.map (fun g => g.id))) = true :=
    (enabledT_iff _ _ _).mpr hge
  have hfire : fireT c .finalize
      (doneMark (c.task_groups.map (fun g => g.id))) = finalMark := by
    funext p
    unfold fireT
    rw [hpreF, hpostF]
    cases p with
    | ready => simp [doneMark, finalMark, count_map_tgComplete_ne,
        List.count_cons]
    | completeP => simp [doneMark, finalMark, count_map_tgComplete_ne,
        List.count_cons]
    | tgPending g' => simp [doneMark, finalMark, count_map_tgComplete_ne,
        List.count_cons]
    | tgRunning g' => simp [doneMark, finalMark, count_map_tgComplete_ne,
        List.count_cons]
    | taskComplete g' t' => simp [doneMark, finalMark,
        count_map_tgComplete_ne, List.count_cons]
    | tgComplete g' =>
        by_cases hmem : g' ∈ c.task_groups.map (fun g => g.id)
        · have hcount : ((c.task_groups.map (fun g => g.id)).map
              (fun g => PNPlace.tgComplete g)).count (.tgComplete g') = 1 := by
            rw [count_map_tgComplete]
            exact List.count_eq_one_of_mem hnd hmem
          rw [List.map_map] at hcount
          simp [doneMark, finalMark, hmem, hcount, List.count_cons]
        · have hcount : ((c.task_groups.map (fun g => g.id)).map
              (fun g => PNPlace.tgComplete g)).count (.tgComplete g') = 0 := by
            rw [count_map_tgComplete]
            exact List.count_eq_zero.mpr hmem
          rw [List.map_map] at hcount
          simp [doneMark, finalMark, hmem, hcount, List.count_cons]
  rw [show fireSeq c (doneMark (c.task_groups.map (fun g => g.id)))
      [PNTrans.finalize] =
      if enabledT c .finalize
          (doneMark (c.task_groups.map (fun g => g.id))) then
        fireSeq c (fireT c .finalize
          (doneMark (c.task_groups.map (fun g => g.id)))) []
      else none from rfl]
  rw [if_pos hen, hfire]
  rfl

theorem enabledT_false_of_zero (c : Campaign) (t : PNTrans) (m : Marking)
    (p : PNPlace) (hp : p ∈ preT c t) (hz : m p = 0) :
    enabledT c t m = false := by
  cases henb : enabledT c t m with
  | false => rfl
  | true =>
      have := (enabledT_iff c t m).mp henb p hp
      rw [hz] at this
      omega

theorem filter_getLast_isSome {α : Type} (l : List α) (p : α → Bool) (x : α)
    (hx : x ∈ l) (hp : p x = true) :
    ∃ y, (l.filter p).getLast? = some y := by
  have hne : l.filter p ≠ [] := by
    intro hcon
    exact absurd hp (by simpa using List.filter_eq_nil_iff.mp hcon x hx)
  cases hl : (l.filter p).getLast? with
  | none => exact absurd (List.getLast?_eq_none_iff.mp hl) hne
  | some y => exact ⟨y, rfl⟩

theorem no_enabled_at_final (c : Campaign) (hne : c.task_groups ≠ []) :
    ∀ t ∈ netTransitions c, enabledT c t finalMark = false := by
  intro t ht
  rcases List.mem_append.mp ht with hflat | hfin
  · rcases List.mem_flatten.mp hflat with ⟨blk, hblk, htin⟩
    rcases List.mem_map.mp hblk with ⟨gid, hgid, rfl⟩
    have hgidmem : gid ∈ c.task_groups.map (fun g => g.id) :=
      dedupFirst_subset _ [] gid hgid
    rcases List.mem_map.mp hgidmem with ⟨g0, hg0, rfl⟩
    obtain ⟨tg, htg⟩ : ∃ tg,
        findGroup c g0.id = some tg := by
      unfold findGroup
      exact filter_getLast_isSome c.task_groups _ g0 hg0 (by simp)
    rcases List.mem_cons.mp htin with rfl | htin
    · -- activate
      by_cases hd : tg.group_dependencies = []
      · refine enabledT_false_of_zero c _ finalMark .ready ?_ rfl
        simp only [preT, htg, hd, if_pos]
        exact List.mem_singleton.mpr rfl
      · cases hdl : tg.group_dependencies with
        | nil => exact absurd hdl hd
        | cons d ds =>
            refine enabledT_false_of_zero c _ finalMark (.tgComplete d) ?_ rfl
            simp only [preT, htg, hd, if_neg, hdl]
            simp
    · rcases List.mem_cons.mp htin with rfl | htin
      · -- complete
        refine enabledT_false_of_zero c _ finalMark (.tgPending g0.id) ?_ rfl
        simp only [preT, htg]
        exact List.mem_cons_self _ _
      · -- task transitions
        rcases List.mem_map.mp htin with ⟨task, htask, rfl⟩
        have htask' : task ∈ tg.tasks := by
          unfold groupTasks at htask
          rw [htg] at htask
          exact htask
        obtain ⟨tk, htk⟩ : ∃ tk, findTask tg task.id = some tk := by
          unfold findTask
          exact filter_getLast_isSome tg.tasks _ task htask' (by simp)
        refine enabledT_false_of_zero c _ finalMark (.tgPending g0.id) ?_ rfl
        simp only [preT, htg, htk]
        exact List.mem_cons_self _ _
  · rcases List.mem_singleton.mp hfin with rfl
    cases hgs : c.task_groups with
    | nil => exact absurd hgs hne
    | cons g0 rest =>
        have hmem0 : g0.id ∈ tgIds c := by
          unfold tgIds
          rw [hgs]
          simp only [List.map_cons]
          unfold dedupFirst
          rw [if_neg (by intro hcon; cases hcon)]
          exact List.mem_cons_self _ _
        refine enabledT_false_of_zero c _ finalMark (.tgComplete g0.id) ?_ rfl
        simp only [preT]
        exact List.mem_map_of_mem _ hmem0

/-- C5 (amended): for every campaign with at least one task group whose
declaration order is topological — the FIRST group has no dependencies and
every later group has a nonempty duplicate-free dependency list naming only
earlier groups; task dependencies likewise name only earlier tasks of the
same group; all ids duplicate-free — the compiled net admits the canonical
execution sequence (per group: activate, its tasks in order, complete; then
finalize_campaign) with every transition enabled when fired; the final
marking has one token in Complete and none elsewhere, and no transition is
enabled.  With two or more independent groups the sequence is NOT admissible
(the single Ready token is consumed by the first activate and never
returned). -/
theorem c5_amended_canonical_run (c : Campaign)
    (h : wellStructured c = true) :
    ∃ m : Marking,
      fireSeq c initialMarking (canonicalSeq c) = some m ∧
      (∀ p, m p = if p = PNPlace.completeP then 1 else 0) ∧
      (∀ t ∈ netTransitions c, enabledT c t m = false) := by
  simp only [wellStructured, Bool.and_eq_true, decide_eq_true_eq,
    List.all_eq_true] at h
  obtain ⟨⟨⟨hne, hnodup⟩, hchain⟩, htasks⟩ := h
  refine ⟨finalMark, ?_, fun p => rfl, no_enabled_at_final c hne⟩
  have hcanon : canonicalSeq c =
      (c.task_groups.map blockSeq).flatten ++ [PNTrans.finalize] := rfl
  rw [hcanon, fireSeq_append]
  cases hgs : c.task_groups with
  | nil => exact absurd hgs hne
  | cons g0 rest =>
      rw [hgs] at hchain
      simp only [groupsChainOK, List.isEmpty_nil, if_pos, Bool.and_eq_true,
        decide_eq_true_eq, if_true] at hchain
      obtain ⟨hdep0, hrest⟩ := hchain
      have hmem0 : g0 ∈ c.task_groups := by
        rw [hgs]
        exact List.mem_cons_self _ _
      have hfind0 : findGroup c g0.id = some g0 :=
        findGroup_self c g0 hmem0 hnodup
      have htask0 := htasks g0 hmem0
      have hblock0 := fire_group_block c g0 [] initialMarking hfind0
        htask0.1 htask0.2 (by simp) (Or.inl ⟨hdep0, rfl, rfl⟩)
      simp only [List.map_cons, List.flatten_cons]
      rw [fireSeq_append, hblock0, Option.some_bind]
      have hnodup' : ((g0 :: rest).map (fun g => g.id)).Nodup := by
        rw [← hgs]
        exact hnodup
      have hrestrun := fire_rest_groups c rest [g0.id] (by simp)
        (fun x hx => findGroup_self c x
          (by rw [hgs]; exact List.mem_cons_of_mem _ hx) hnodup)
        (fun x hx => htasks x (by rw [hgs]; exact List.mem_cons_of_mem _ hx))
        hrest
        (by simpa using hnodup')
      rw [show doneMark ([] ++ [g0.id]) = doneMark [g0.id] from rfl, hrestrun,
        Option.some_bind]
      have hall : ([g0.id] ++ rest.map (fun g => g.id)) =
          c.task_groups.map (fun g => g.id) := by
        rw [hgs]
        rfl
      rw [hall]
      exact fire_finalize c hnodup

/-- A two-group chain with intra-group task dependencies, for the C5
witness. -/
def chainCampaign : Campaign :=
  { id := "c5w",
    task_groups :=
      [{ id := "a", group_dependencies := [],
         tasks := [{ id := "t1", hierarchy := "h", task_dependencies := [] },
                   { id := "t2", hierarchy := "h",
                     task_dependencies := ["t1"] }] },
       { id := "b", group_dependencies := ["a"],
         tasks := [{ id := "t3", hierarchy := "h",
                     task_dependencies := [] }] }] }

/-- Witness for the amended C5 theorem at a concrete two-group chain. -/
theorem c5_amended_canonical_run_witness :
    wellStructured chainCampaign = true ∧
    (∃ m : Marking,
      fireSeq chainCampaign initialMarking (canonicalSeq chainCampaign) =
        some m ∧
      (∀ p, m p = if p = PNPlace.completeP then 1 else 0) ∧
      (∀ t ∈ netTransitions chainCampaign,
        enabledT chainCampaign t m = false)) :=
  ⟨by decide, c5_amended_canonical_run chainCampaign (by decide)⟩

/-! ### Cycle detection (`CampaignPetriNetConverter._validate_campaign`)

Python's recursive `has_cycle` with the shared `visited` and `rec_stack`
sets, including its quirk that a node NOT in `task_group_map` returns False
without being removed from `rec_stack`.  Sets are modelled as lists; the
recursion carries a fuel argument (Python terminates because `visited` only
grows; the totality lemma below shows the chosen fuel never runs out). -/

/-- Dependency list of a node: empty for ids outside `task_group_map`. -/
def adjOf (c : Campaign) (u : String) : List String :=
  match findGroup c u with
  | some tg => tg.group_dependencies
  | none => []

/-- Whether an id is a key of `task_group_map`. -/
def isNode (c : Campaign) (u : String) : Bool :=
  (findGroup c u).isSome

mutual
/-- One `has_cycle(u)` call: mark visited and on-stack, return False for
missing nodes (without popping), else scan the dependencies; pop on a False
return.  Result: `(cycle?, visited, rec_stack)`, `none` on fuel
exhaustion. -/
def hasCycleF (c : Campaign) (fuel : Nat) (u : String)
    (visited rstk : List String) :
    Option (Bool × List String × List String) :=
  match fuel with
  | 0 => none
  | fuel' + 1 =>
      match findGroup c u with
      | none => some (false, u :: visited, u :: rstk)
      | some tg =>
          match goDeps c fuel' tg.group_dependencies (u :: visited)
              (u :: rstk) with
          | none => none
          | some (true, v, r) => some (true, v, r)
          | some (false, v, r) => some (false, v, r.erase u)
termination_by (fuel, 0)

/-- The `for dep_id in tg.group_dependencies` loop: recurse on unvisited
dependencies, report a cycle for a visited dependency still on the stack. -/
def goDeps (c : Campaign) (fuel : Nat) (ds : List String)
    (v r : List String) : Option (Bool × List String × List String) :=
  match ds with
  | [] => some (false, v, r)
  | d :: ds' =>
      if d ∈ v then
        if d ∈ r then some (true, v, r)
        else goDeps c fuel ds' v r
      else
        match hasCycleF c fuel d v r with
        | none => none
        | some (true, v', r') => some (true, v', r')
        | some (false, v', r') => goDeps c fuel ds' v' r'
termination_by (fuel, ds.length + 1)
end

/-- The top-level `for tg_id in self.task_group_map` loop, sharing `visited`
and `rec_stack` across iterations; returns the first offending key, `none`
inside `some` when no cycle is reported, and outer `none` on fuel
exhaustion. -/
def validateLoop (c : Campaign) (fuel : Nat) :
    List String → List String → List String → Option (Option String)
  | [], _, _ => some none
  | k :: ks, v, r =>
      if k ∈ v then validateLoop c fuel ks v r
      else
        match hasCycleF c fuel k v r with
        | none => none
        | some (true, _, _) => some (some k)
        | some (false, v', r') => validateLoop c fuel ks v' r'

/-- Every id the DFS can ever visit: the map keys and all mentioned
dependencies. -/
def allNodes (c : Campaign) : List String :=
  c.task_groups.map (fun g => g.id) ++
    (c.task_groups.map (fun g => g.group_dependencies)).flatten

/-- `_validate_campaign`: `some (some k)` = `Circular dependency detected …
involving k` is raised; `some none` = validation passes; `none` = fuel ran
out (shown impossible below). -/
def validateCampaign (c : Campaign) : Option (Option String) :=
  validateLoop c ((allNodes c).length + 1) (tgIds c) [] []

/-- The dependency edge relation of the campaign's task groups. -/
def DepEdge (c : Campaign) (u d : String) : Prop :=
  d ∈ adjOf c u

instance (c : Campaign) (u d : String) : Decidable (DepEdge c u d) :=
  inferInstanceAs (Decidable (d ∈ adjOf c u))

/-- `IsDepCycle c u l`: following dependency edges leads from `u` through
`l` back to `u` — a cycle in the task-group dependencies. -/
def IsDepCycle (c : Campaign) (u : String) (l : List String) : Prop :=
  List.Chain (DepEdge c) u (l ++ [u])

/-- A node the DFS has fully finished: visited, and either off the recursion
stack or a missing node (which Python leaves on the stack forever). -/
def Finished (c : Campaign) (v r : List String) (u : String) : Prop :=
  u ∈ v ∧ (u ∉ r ∨ isNode c u = false)

/-- The DFS invariant: finished nodes carry a finish order in which every
dependency of a finished node is finished strictly earlier. -/
def Inv (c : Campaign) (v r : List String) : Prop :=
  ∃ fl : List String, fl.Nodup ∧
    (∀ x, Finished c v r x ↔ x ∈ fl) ∧
    (∀ u ∈ fl, ∀ d ∈ adjOf c u, d ∈ fl ∧ fl.indexOf d < fl.indexOf u)

/-- Relation between DFS states before and after a completed (False) call:
visited grows; stack membership of real nodes is unchanged; the stack only
gains freshly visited missing nodes; the stack stays duplicate-free and
within visited; the invariant holds at the new state. -/
def Step (c : Campaign) (v r v' r' : List String) : Prop :=
  (∀ x ∈ v, x ∈ v') ∧
  (∀ x, isNode c x = true → (x ∈ r' ↔ x ∈ r)) ∧
  (∀ x ∈ r, x ∈ r') ∧
  (∀ x ∈ r', x ∈ r ∨ (isNode c x = false ∧ x ∉ v ∧ x ∈ v')) ∧
  r'.Nodup ∧
  (∀ x ∈ r', x ∈ v') ∧
  Inv c v' r'

theorem Step_refl (c : Campaign) (v r : List String) (hnd : r.Nodup)
    (hrv : ∀ x ∈ r, x ∈ v) (hinv : Inv c v r) : Step c v r v r :=
  ⟨fun _ h => h, fun _ _ => Iff.rfl, fun _ h => h, fun _ h => Or.inl h,
   hnd, hrv, hinv⟩

theorem Finished_mono (c : Campaign) (v r v' r' : List String)
    (hsub : ∀ x ∈ v, x ∈ v')
    (hP4 : ∀ x ∈ r', x ∈ r ∨ (isNode c x = false ∧ x ∉ v ∧ x ∈ v'))
    (x : String) (hf : Finished c v r x) : Finished c v' r' x := by
  obtain ⟨hxv, hxr⟩ := hf
  refine ⟨hsub x hxv, ?_⟩
  rcases hxr with hxr | hnode
  · by_cases hx' : x ∈ r'
    · rcases hP4 x hx' with h | ⟨hn, _, _⟩
      · exact absurd h hxr
      · exact Or.inr hn
    · exact Or.inl hx'
  · exact Or.inr hnode

theorem Step_trans (c : Campaign) (v r v' r' v'' r'' : List String)
    (h1 : Step c v r v' r') (h2 : Step c v' r' v'' r'') :
    Step c v r v'' r'' := by
  obtain ⟨a1, b1, c1, d1, _, _, _⟩ := h1
  obtain ⟨a2, b2, c2, d2, e2, f2, g2⟩ := h2
  refine ⟨fun x h => a2 x (a1 x h),
    fun x hx => (b2 x hx).trans (b1 x hx),
    fun x h => c2 x (c1 x h), ?_, e2, f2, g2⟩
  intro x hx
  rcases d2 x hx with hx' | ⟨hn, hnv', hv''⟩
  · rcases d1 x hx' with h | ⟨hn, hnv, hv'⟩
    · exact Or.inl h
    · exact Or.inr ⟨hn, hnv, a2 x hv'⟩
  · refine Or.inr ⟨hn, fun hcon => hnv' (a1 x hcon), hv''⟩

theorem Finished_erase (c : Campaign) (v r : List String) (u x : String)
    (hf : Finished c v r x) : Finished c v (r.erase u) x := by
  obtain ⟨h1, h2⟩ := hf
  refine ⟨h1, ?_⟩
  rcases h2 with h2 | h2
  · exact Or.inl (fun hcon => h2 (List.mem_of_mem_erase hcon))
  · exact Or.inr h2

theorem Inv_extend (c : Campaign) (vO rO vN rN : List String) (u : String)
    (hinv : Inv c vO rO)
    (hnotf : ¬ Finished c vO rO u)
    (hiff : ∀ x, Finished c vN rN x ↔ (Finished c vO rO x ∨ x = u))
    (hdeps : ∀ d ∈ adjOf c u, Finished c vO rO d) :
    Inv c vN rN := by
  obtain ⟨fl, hnd, hf, hrank⟩ := hinv
  have hunot : u ∉ fl := fun hcon => hnotf ((hf u).mpr hcon)
  refine ⟨fl ++ [u], ?_, ?_, ?_⟩
  · refine List.Nodup.append hnd (List.nodup_singleton u) ?_
    intro x hx hxu
    rcases List.mem_singleton.mp hxu with rfl
    exact hunot hx
  · intro x
    rw [hiff x, hf x, List.mem_append, List.mem_singleton]
  · intro w hw d hd
    rcases List.mem_append.mp hw with hw' | hw'
    · obtain ⟨hdf, hidx⟩ := hrank w hw' d hd
      refine ⟨List.mem_append_left _ hdf, ?_⟩
      rw [List.indexOf_append_of_mem hdf, List.indexOf_append_of_mem hw']
      exact hidx
    · rcases List.mem_singleton.mp hw' with rfl
      have hdf : d ∈ fl := (hf d).mp (hdeps d hd)
      refine ⟨List.mem_append_left _ hdf, ?_⟩
      rw [List.indexOf_append_of_mem hdf,
        List.indexOf_append_of_not_mem hunot]
      have := List.indexOf_lt_length.mpr hdf
      simp only [List.indexOf_cons_self]
      omega

/-- Postcondition of a False-returning `has_cycle` call. -/
def HCPost (c : Campaign) (fuel : Nat) : Prop :=
  ∀ u v r v' r', u ∉ v → r.Nodup → (∀ x ∈ r, x ∈ v) → Inv c v r →
    hasCycleF c fuel u v r = some (false, v', r') →
    Step c v r v' r' ∧ Finished c v' r' u

/-- Postcondition of a False-returning dependency loop. -/
def GDPost (c : Campaign) (fuel : Nat) : Prop :=
  ∀ ds v r v' r', r.Nodup → (∀ x ∈ r, x ∈ v) → Inv c v r →
    goDeps c fuel ds v r = some (false, v', r') →
    Step c v r v' r' ∧ ∀ d ∈ ds, Finished c v' r' d

theorem gd_post_of_hc_post (c : Campaign) (fuel : Nat)
    (hhc : HCPost c fuel) : GDPost c fuel := by
  intro ds
  induction ds with
  | nil =>
      intro v r v' r' hnd hrv hinv heq
      simp only [goDeps, Option.some.injEq, Prod.mk.injEq, true_and] at heq
      obtain ⟨hv, hr⟩ := heq
      subst hv
      subst hr
      exact ⟨Step_refl c v r hnd hrv hinv, fun d hd => absurd hd
        (List.not_mem_nil d)⟩
  | cons d ds ih =>
      intro v r v' r' hnd hrv hinv heq
      by_cases hdv : d ∈ v
      · by_cases hdr : d ∈ r
        · simp [goDeps, hdv, hdr] at heq
        · simp only [goDeps, if_pos hdv, if_neg hdr] at heq
          obtain ⟨hstep, hall⟩ := ih v r v' r' hnd hrv hinv heq
          refine ⟨hstep, ?_⟩
          intro x hx
          rcases List.mem_cons.mp hx with rfl | hx
          · exact Finished_mono c v r v' r' hstep.1 hstep.2.2.2.1 x
              ⟨hdv, Or.inl hdr⟩
          · exact hall x hx
      · cases hc : hasCycleF c fuel d v r with
        | none => simp [goDeps, hdv, hc] at heq
        | some res =>
            obtain ⟨b, v0, r0⟩ := res
            cases b with
            | true => simp [goDeps, hdv, hc] at heq
            | false =>
                simp only [goDeps, if_neg hdv, hc] at heq
                obtain ⟨hstep1, hfin_d⟩ :=
                  hhc d v r v0 r0 hdv hnd hrv hinv hc
                obtain ⟨hstep2, hall⟩ := ih v0 r0 v' r'
                  hstep1.2.2.2.2.1 hstep1.2.2.2.2.2.1
                  hstep1.2.2.2.2.2.2 heq
                refine ⟨Step_trans c v r v0 r0 v' r' hstep1 hstep2, ?_⟩
                intro x hx
                rcases List.mem_cons.mp hx with rfl | hx
                · exact Finished_mono c v0 r0 v' r' hstep2.1
                    hstep2.2.2.2.1 x hfin_d
                · exact hall x hx

theorem Inv_push (c : Campaign) (v r : List String) (u : String)
    (hinv : Inv c v r) (huv : u ∉ v) (hnode : isNode c u = true) :
    Inv c (u :: v) (u :: r) := by
  obtain ⟨fl, hnd, hf, hrank⟩ := hinv
  refine ⟨fl, hnd, ?_, hrank⟩
  intro x
  rw [← hf x]
  constructor
  · rintro ⟨hxv, hxr⟩
    by_cases hxu : x = u
    · subst hxu
      rcases hxr with hxr | hxr
      · exact absurd (List.mem_cons_self x r) hxr
      · rw [hnode] at hxr
        cases hxr
    · refine ⟨?_, ?_⟩
      · rcases List.mem_cons.mp hxv with h | h
        · exact absurd h hxu
        · exact h
      · rcases hxr with hxr | hxr
        · exact Or.inl (fun hcon => hxr (List.mem_cons_of_mem u hcon))
        · exact Or.inr hxr
  · rintro ⟨hxv, hxr⟩
    have hxu : x ≠ u := fun hcon => huv (hcon ▸ hxv)
    refine ⟨List.mem_cons_of_mem u hxv, ?_⟩
    rcases hxr with hxr | hxr
    · exact Or.inl (fun hcon => hxr
        (by rcases List.mem_cons.mp hcon with h | h
            · exact absurd h hxu
            · exact h))
    · exact Or.inr hxr

theorem hc_post_succ (c : Campaign) (fuel : Nat)
    (hgd : GDPost c fuel) : HCPost c (fuel + 1) := by
  intro u v r v' r' huv hnd hrv hinv heq
  have hur : u ∉ r := fun hcon => huv (hrv u hcon)
  cases hfg : findGroup c u with
  | none =>
      have hnodeu : isNode c u = false := by
        unfold isNode
        rw [hfg]
        rfl
      simp only [hasCycleF, hfg, Option.some.injEq, Prod.mk.injEq,
        true_and] at heq
      obtain ⟨hv, hr⟩ := heq
      subst hv
      subst hr
      have hfinu : Finished c (u :: v) (u :: r) u :=
        ⟨List.mem_cons_self u v, Or.inr hnodeu⟩
      refine ⟨⟨fun x hx => List.mem_cons_of_mem u hx, ?_, ?_, ?_, ?_, ?_,
        ?_⟩, hfinu⟩
      · intro x hx
        have hxu : x ≠ u := by
          intro hcon
          subst hcon
          rw [hx] at hnodeu
          cases hnodeu
        constructor
        · intro hcon
          rcases List.mem_cons.mp hcon with h | h
          · exact absurd h hxu
          · exact h
        · exact fun h => List.mem_cons_of_mem u h
      · exact fun x hx => List.mem_cons_of_mem u hx
      · intro x hx
        rcases List.mem_cons.mp hx with rfl | hx
        · exact Or.inr ⟨hnodeu, huv, List.mem_cons_self x v⟩
        · exact Or.inl hx
      · exact List.Nodup.cons hur hnd
      · intro x hx
        rcases List.mem_cons.mp hx with rfl | hx
        · exact List.mem_cons_self x v
        · exact List.mem_cons_of_mem u (hrv x hx)
      · refine Inv_extend c v r (u :: v) (u :: r) u hinv
          (fun hcon => huv hcon.1) ?_ ?_
        · intro x
          constructor
          · rintro ⟨hxv, hxr⟩
            by_cases hxu : x = u
            · exact Or.inr hxu
            · refine Or.inl ⟨?_, ?_⟩
              · rcases List.mem_cons.mp hxv with h | h
                · exact absurd h hxu
                · exact h
              · rcases hxr with hxr | hxr
                · exact Or.inl
                    (fun hcon => hxr (List.mem_cons_of_mem u hcon))
                · exact Or.inr hxr
          · intro hx
            rcases hx with ⟨hxv, hxr⟩ | rfl
            · refine ⟨List.mem_cons_of_mem u hxv, ?_⟩
              have hxu : x ≠ u := fun hcon => huv (hcon ▸ hxv)
              rcases hxr with hxr | hxr
              · refine Or.inl ?_
                intro hcon
                rcases List.mem_cons.mp hcon with h | h
                · exact hxu h
                · exact hxr h
              · exact Or.inr hxr
            · exact hfinu
        · intro d hd
          unfold adjOf at hd
          rw [hfg] at hd
          cases hd
  | some tg =>
      have hnodeu : isNode c u = true := by
        unfold isNode
        rw [hfg]
        rfl
      cases hgo : goDeps c fuel tg.group_dependencies (u :: v)
          (u :: r) with
      | none => simp [hasCycleF, hfg, hgo] at heq
      | some res =>
          obtain ⟨b, v0, r0⟩ := res
          cases b with
          | true => simp [hasCycleF, hfg, hgo] at heq
          | false =>
              simp only [hasCycleF, hfg, hgo, Option.some.injEq,
                Prod.mk.injEq, true_and] at heq
              obtain ⟨hv, hr⟩ := heq
              subst hv
              subst hr
              have hndp : (u :: r).Nodup := List.Nodup.cons hur hnd
              have hrvp : ∀ x ∈ u :: r, x ∈ u :: v := by
                intro x hx
                rcases List.mem_cons.mp hx with rfl | hx
                · exact List.mem_cons_self x v
                · exact List.mem_cons_of_mem u (hrv x hx)
              have hinvp := Inv_push c v r u hinv huv hnodeu
              obtain ⟨hstepG, hallG⟩ := hgd tg.group_dependencies
                (u :: v) (u :: r) v0 r0 hndp hrvp hinvp hgo
              obtain ⟨a2, b2, c2, d2, e2, f2, g2⟩ := hstepG
              have hur0 : u ∈ r0 := c2 u (List.mem_cons_self u r)
              have hunotr' : u ∉ r0.erase u := by
                intro hcon
                exact absurd (e2.mem_erase_iff.mp hcon).1 (by simp)
              have huv0 : u ∈ v0 := f2 u hur0
              have hfinu : Finished c v0 (r0.erase u) u :=
                ⟨huv0, Or.inl hunotr'⟩
              have hnotfinu : ¬ Finished c v0 r0 u := by
                rintro ⟨_, hcon | hcon⟩
                · exact hcon hur0
                · rw [hnodeu] at hcon
                  cases hcon
              refine ⟨⟨?_, ?_, ?_, ?_, ?_, ?_, ?_⟩, hfinu⟩
              · exact fun x hx => a2 x (List.mem_cons_of_mem u hx)
              · intro x hx
                by_cases hxu : x = u
                · subst hxu
                  constructor
                  · intro hcon
                    exact absurd hcon hunotr'
                  · intro hcon
                    exact absurd hcon hur
                · rw [List.mem_erase_of_ne hxu, b2 x hx]
                  constructor
                  · intro hcon
                    rcases List.mem_cons.mp hcon with h | h
                    · exact absurd h hxu
                    · exact h
                  · exact fun h => List.mem_cons_of_mem u h
              · intro x hx
                have hxu : x ≠ u := fun hcon => hur (hcon ▸ hx)
                rw [List.mem_erase_of_ne hxu]
                exact c2 x (List.mem_cons_of_mem u hx)
              · intro x hx
                have hxu : x ≠ u := fun hcon => hunotr' (hcon ▸ hx)
                have hx0 : x ∈ r0 := List.mem_of_mem_erase hx
                rcases d2 x hx0 with h | ⟨hn, hnv, hv0⟩
                · rcases List.mem_cons.mp h with h' | h'
                  · exact absurd h' hxu
                  · exact Or.inl h'
                · refine Or.inr ⟨hn, ?_, hv0⟩
                  exact fun hcon => hnv (List.mem_cons_of_mem u hcon)
              · exact e2.erase u
              · intro x hx
                exact f2 x (List.mem_of_mem_erase hx)
              · refine Inv_extend c v0 r0 v0 (r0.erase u) u g2
                  hnotfinu ?_ ?_
                · intro x
                  constructor
                  · rintro ⟨hxv, hxr⟩
                    by_cases hxu : x = u
                    · exact Or.inr hxu
                    · refine Or.inl ⟨hxv, ?_⟩
                      rcases hxr with hxr | hxr
                      · refine Or.inl ?_
                        rw [List.mem_erase_of_ne hxu] at hxr
                        exact hxr
                      · exact Or.inr hxr
                  · intro hx
                    rcases hx with hx | rfl
                    · exact Finished_erase c v0 r0 u x hx
                    · exact hfinu
                · intro d hd
                  unfold adjOf at hd
                  rw [hfg] at hd
                  exact hallG d hd

theorem dfs_post (c : Campaign) : ∀ fuel : Nat,
    HCPost c fuel ∧ GDPost c fuel := by
  intro fuel
  induction fuel with
  | zero =>
      have hhc : HCPost c 0 := by
        intro u v r v' r' _ _ _ _ heq
        simp [hasCycleF] at heq
      exact ⟨hhc, gd_post_of_hc_post c 0 hhc⟩
  | succ n ih =>
      have hhc := hc_post_succ c n ih.2
      exact ⟨hhc, gd_post_of_hc_post c (n + 1) hhc⟩

/-- Count of nodes not yet visited: the DFS termination measure. -/
def unvis (c : Campaign) (v : List String) : Nat :=
  ((allNodes c).filter (fun x => decide (x ∉ v))).length

theorem filter_notmem_le (l v v' : List String)
    (hsub : ∀ x ∈ v, x ∈ v') :
    (l.filter (fun x => decide (x ∉ v'))).length ≤
      (l.filter (fun x => decide (x ∉ v))).length := by
  induction l with
  | nil => simp
  | cons a l ih =>
      rw [List.filter_cons, List.filter_cons]
      by_cases ha : a ∈ v'
      · have h1 : (decide (a ∉ v')) = false := by simp [ha]
        rw [h1]
        by_cases hav : a ∈ v
        · have h2 : (decide (a ∉ v)) = false := by simp [hav]
          rw [h2]
          simpa using ih
        · have h2 : (decide (a ∉ v)) = true := by simp [hav]
          rw [h2]
          simp only [Bool.false_eq_true, if_false, if_pos rfl,
            List.length_cons]
          exact Nat.le_succ_of_le ih
      · have hav : a ∉ v := fun hcon => ha (hsub a hcon)
        have h1 : (decide (a ∉ v')) = true := by simp [ha]
        have h2 : (decide (a ∉ v)) = true := by simp [hav]
        rw [h1, h2]
        simpa using ih

theorem filter_notmem_cons_lt (l v : List String) (u : String)
    (hu : u ∈ l) (hnv : u ∉ v) :
    (l.filter (fun x => decide (x ∉ u :: v))).length <
      (l.filter (fun x => decide (x ∉ v))).length := by
  induction l with
  | nil => cases hu
  | cons a l ih =>
      rw [List.filter_cons, List.filter_cons]
      by_cases hau : a = u
      · subst hau
        have h1 : (decide (a ∉ a :: v)) = false := by simp
        have h2 : (decide (a ∉ v)) = true := by simp [hnv]
        rw [h1, h2]
        simp only [Bool.false_eq_true, if_false, if_pos rfl,
          List.length_cons]
        exact Nat.lt_succ_of_le
          (filter_notmem_le l v (a :: v)
            (fun x hx => List.mem_cons_of_mem a hx))
      · have hu' : u ∈ l := by
          rcases List.mem_cons.mp hu with h | h
          · exact absurd h.symm hau
          · exact h
        by_cases hav : a ∈ v
        · have h1 : (decide (a ∉ u :: v)) = false := by
            simp [List.mem_cons, hav]
          have h2 : (decide (a ∉ v)) = false := by simp [hav]
          rw [h1, h2]
          simpa using ih hu'
        · have h1 : (decide (a ∉ u :: v)) = true := by
            simp only [decide_eq_true_eq, List.mem_cons, not_or]
            exact ⟨hau, hav⟩
          have h2 : (decide (a ∉ v)) = true := by simp [hav]
          rw [h1, h2]
          simpa using Nat.succ_lt_succ (ih hu')

/-- Visited only grows across a `has_cycle` call. -/
def HCVis (c : Campaign) (fuel : Nat) : Prop :=
  ∀ u v r b v' r', hasCycleF c fuel u v r = some (b, v', r') →
    ∀ x ∈ v, x ∈ v'

/-- Visited only grows across a dependency loop. -/
def GDVis (c : Campaign) (fuel : Nat) : Prop :=
  ∀ ds v r b v' r', goDeps c fuel ds v r = some (b, v', r') →
    ∀ x ∈ v, x ∈ v'

theorem gd_vis_of_hc_vis (c : Campaign) (fuel : Nat)
    (hhc : HCVis c fuel) : GDVis c fuel := by
  intro ds
  induction ds with
  | nil =>
      intro v r b v' r' heq
      simp only [goDeps, Option.some.injEq, Prod.mk.injEq] at heq
      obtain ⟨_, hv, _⟩ := heq
      subst hv
      exact fun x h => h
  | cons d ds ih =>
      intro v r b v' r' heq
      by_cases hdv : d ∈ v
      · by_cases hdr : d ∈ r
        · simp only [goDeps, if_pos hdv, if_pos hdr, Option.some.injEq,
            Prod.mk.injEq] at heq
          obtain ⟨_, hv, _⟩ := heq
          subst hv
          exact fun x h => h
        · simp only [goDeps, if_pos hdv, if_neg hdr] at heq
          exact ih v r b v' r' heq
      · cases hc : hasCycleF c fuel d v r with
        | none => simp [goDeps, hdv, hc] at heq
        | some res =>
            obtain ⟨b0, v0, r0⟩ := res
            have hsub := hhc d v r b0 v0 r0 hc
            cases b0 with
            | true =>
                simp only [goDeps, if_neg hdv, hc, Option.some.injEq,
                  Prod.mk.injEq] at heq
                obtain ⟨_, hv, _⟩ := heq
                subst hv
                exact hsub
            | false =>
                simp only [goDeps, if_neg hdv, hc] at heq
                exact fun x h => ih v0 r0 b v' r' heq x (hsub x h)

theorem hc_vis_succ (c : Campaign) (fuel : Nat)
    (hgd : GDVis c fuel) : HCVis c (fuel + 1) := by
  intro u v r b v' r' heq
  cases hfg : findGroup c u with
  | none =>
      simp only [hasCycleF, hfg, Option.some.injEq, Prod.mk.injEq] at heq
      obtain ⟨_, hv, _⟩ := heq
      subst hv
      exact fun x h => List.mem_cons_of_mem u h
  | some tg =>
      cases hgo : goDeps c fuel tg.group_dependencies (u :: v)
          (u :: r) with
      | none => simp [hasCycleF, hfg, hgo] at heq
      | some res =>
          obtain ⟨b0, v0, r0⟩ := res
          have hsub := hgd tg.group_dependencies (u :: v) (u :: r)
            b0 v0 r0 hgo
          cases b0 with
          | true =>
              simp only [hasCycleF, hfg, hgo, Option.some.injEq,
                Prod.mk.injEq] at heq
              obtain ⟨_, hv, _⟩ := heq
              subst hv
              exact fun x h => hsub x (List.mem_cons_of_mem u h)
          | false =>
              simp only [hasCycleF, hfg, hgo, Option.some.injEq,
                Prod.mk.injEq] at heq
              obtain ⟨_, hv, _⟩ := heq
              subst hv
              exact fun x h => hsub x (List.mem_cons_of_mem u h)

theorem dfs_vis (c : Campaign) : ∀ fuel : Nat,
    HCVis c fuel ∧ GDVis c fuel := by
  intro fuel
  induction fuel with
  | zero =>
      have hhc : HCVis c 0 := by
        intro u v r b v' r' heq
        simp [hasCycleF] at heq
      exact ⟨hhc, gd_vis_of_hc_vis c 0 hhc⟩
  | succ n ih =>
      have hhc := hc_vis_succ c n ih.2
      exact ⟨hhc, gd_vis_of_hc_vis c (n + 1) hhc⟩

theorem getLast?_some_mem {α : Type} (l : List α) (a : α)
    (h : l.getLast? = some a) : a ∈ l := by
  have hmem : a ∈ l.getLast? := Option.mem_def.mpr h
  obtain ⟨hne, heq⟩ := List.mem_getLast?_eq_getLast hmem
  rw [heq]
  exact List.getLast_mem hne

theorem findGroup_mem (c : Campaign) (u : String) (tg : TaskGroup)
    (h : findGroup c u = some tg) : tg ∈ c.task_groups := by
  unfold findGroup at h
  exact List.mem_of_mem_filter (getLast?_some_mem _ tg h)

theorem adjOf_subset_allNodes (c : Campaign) (u : String) :
    ∀ d ∈ adjOf c u, d ∈ allNodes c := by
  intro d hd
  unfold adjOf at hd
  cases hfg : findGroup c u with
  | none =>
      rw [hfg] at hd
      cases hd
  | some tg =>
      rw [hfg] at hd
      refine List.mem_append.mpr (Or.inr ?_)
      exact List.mem_flatten.mpr ⟨tg.group_dependencies,
        List.mem_map.mpr ⟨tg, findGroup_mem c u tg hfg, rfl⟩, hd⟩

/-- Totality of one `has_cycle` call given enough fuel. -/
def HCTot (c : Campaign) (fuel : Nat) : Prop :=
  ∀ u v r, u ∈ allNodes c → u ∉ v → unvis c v ≤ fuel →
    (hasCycleF c fuel u v r).isSome

/-- Totality of a dependency loop given enough fuel. -/
def GDTot (c : Campaign) (fuel : Nat) : Prop :=
  ∀ ds v r, (∀ d ∈ ds, d ∈ allNodes c) → unvis c v ≤ fuel →
    (goDeps c fuel ds v r).isSome

theorem gd_tot_of_hc_tot (c : Campaign) (fuel : Nat)
    (hhc : HCTot c fuel) : GDTot c fuel := by
  intro ds
  induction ds with
  | nil =>
      intro v r _ _
      simp [goDeps]
  | cons d ds ih =>
      intro v r hds hm
      by_cases hdv : d ∈ v
      · by_cases hdr : d ∈ r
        · simp [goDeps, hdv, hdr]
        · simp only [goDeps, if_pos hdv, if_neg hdr]
          exact ih v r (fun x hx => hds x (List.mem_cons_of_mem d hx)) hm
      · have h1 := hhc d v r (hds d (List.mem_cons_self d ds)) hdv hm
        cases hc : hasCycleF c fuel d v r with
        | none =>
            rw [hc] at h1
            cases h1
        | some res =>
            obtain ⟨b0, v0, r0⟩ := res
            cases b0 with
            | true => simp [goDeps, hdv, hc]
            | false =>
                simp only [goDeps, if_neg hdv, hc]
                refine ih v0 r0
                  (fun x hx => hds x (List.mem_cons_of_mem d hx)) ?_
                have hsub := (dfs_vis c fuel).1 d v r false v0 r0 hc
                exact le_trans (filter_notmem_le (allNodes c) v v0 hsub) hm

theorem dfs_tot (c : Campaign) : ∀ fuel : Nat,
    HCTot c fuel ∧ GDTot c fuel := by
  intro fuel
  induction fuel with
  | zero =>
      have hhc : HCTot c 0 := by
        intro u v r hu hnv hm
        exfalso
        have hmem : u ∈ (allNodes c).filter (fun x => decide (x ∉ v)) :=
          List.mem_filter.mpr ⟨hu, by simp [hnv]⟩
        have hpos : 0 < unvis c v := by
          unfold unvis
          exact List.length_pos.mpr (List.ne_nil_of_mem hmem)
        omega
      exact ⟨hhc, gd_tot_of_hc_tot c 0 hhc⟩
  | succ n ih =>
      have hhc : HCTot c (n + 1) := by
        intro u v r hu hnv hm
        cases hfg : findGroup c u with
        | none => simp [hasCycleF, hfg]
        | some tg =>
            have hdeps : ∀ d ∈ tg.group_dependencies, d ∈ allNodes c := by
              intro d hd
              refine adjOf_subset_allNodes c u d ?_
              unfold adjOf
              rw [hfg]
              exact hd
            have hm' : unvis c (u :: v) ≤ n := by
              have := filter_notmem_cons_lt (allNodes c) v u hu hnv
              unfold unvis at hm ⊢
              omega
            have h2 := ih.2 tg.group_dependencies (u :: v) (u :: r)
              hdeps hm'
            cases hgo : goDeps c n tg.group_dependencies (u :: v)
                (u :: r) with
            | none =>
                rw [hgo] at h2
                cases h2
            | some res =>
                obtain ⟨b0, v0, r0⟩ := res
                cases b0 with
                | true => simp [hasCycleF, hfg, hgo]
                | false => simp [hasCycleF, hfg, hgo]
      exact ⟨hhc, gd_tot_of_hc_tot c (n + 1) hhc⟩

theorem validateLoop_tot (c : Campaign) (fuel : Nat) :
    ∀ ks v r, (∀ k ∈ ks, k ∈ allNodes c) → unvis c v ≤ fuel →
      (validateLoop c fuel ks v r).isSome := by
  intro ks
  induction ks with
  | nil =>
      intro v r _ _
      simp [validateLoop]
  | cons k ks ih =>
      intro v r hks hm
      by_cases hkv : k ∈ v
      · simp only [validateLoop, if_pos hkv]
        exact ih v r (fun x hx => hks x (List.mem_cons_of_mem k hx)) hm
      · have h1 := (dfs_tot c fuel).1 k v r
          (hks k (List.mem_cons_self k ks)) hkv hm
        cases hc : hasCycleF c fuel k v r with
        | none =>
            rw [hc] at h1
            cases h1
        | some res =>
            obtain ⟨b0, v0, r0⟩ := res
            cases b0 with
            | true => simp [validateLoop, hkv, hc]
            | false =>
                simp only [validateLoop, if_neg hkv, hc]
                refine ih v0 r0
                  (fun x hx => hks x (List.mem_cons_of_mem k hx)) ?_
                have hsub := (dfs_vis c fuel).1 k v r false v0 r0 hc
                exact le_trans (filter_notmem_le (allNodes c) v v0 hsub) hm

theorem dedupFirst_complete :
    ∀ (l seen : List String) (x : String), x ∈ l →
      x ∈ dedupFirst l seen ∨ x ∈ seen := by
  intro l
  induction l with
  | nil =>
      intro seen x hx
      cases hx
  | cons a l ih =>
      intro seen x hx
      unfold dedupFirst
      by_cases ha : a ∈ seen
      · rw [if_pos ha]
        rcases List.mem_cons.mp hx with rfl | hx'
        · exact Or.inr ha
        · exact ih seen x hx'
      · rw [if_neg ha]
        rcases List.mem_cons.mp hx with rfl | hx'
        · exact Or.inl (List.mem_cons_self x _)
        · rcases ih (a :: seen) x hx' with h | h
          · exact Or.inl (List.mem_cons_of_mem a h)
          · rcases List.mem_cons.mp h with rfl | h'
            · exact Or.inl (List.mem_cons_self x _)
            · exact Or.inr h'

theorem isNode_mem_tgIds (c : Campaign) (u : String)
    (h : isNode c u = true) : u ∈ tgIds c := by
  unfold isNode at h
  cases hfg : findGroup c u with
  | none =>
      rw [hfg] at h
      cases h
  | some tg =>
      have htg := findGroup_mem c u tg hfg
      have hid : tg.id = u := by
        have := List.mem_filter.mp
          (getLast?_some_mem _ tg hfg)
        simpa using this.2
      have hmem : u ∈ c.task_groups.map (fun g => g.id) :=
        List.mem_map.mpr ⟨tg, htg, hid⟩
      rcases dedupFirst_complete (c.task_groups.map (fun g => g.id)) [] u
          hmem with h' | h'
      · exact h'
      · cases h'

theorem validateCampaign_isSome (c : Campaign) :
    (validateCampaign c).isSome := by
  unfold validateCampaign
  refine validateLoop_tot c ((allNodes c).length + 1) (tgIds c) [] []
    ?_ ?_
  · intro k hk
    exact List.mem_append.mpr
      (Or.inl (dedupFirst_subset _ [] k hk))
  · unfold unvis
    have : (allNodes c).filter (fun x => decide (x ∉ ([] : List String)))
        = allNodes c := by
      apply List.filter_eq_self.mpr
      intro a _
      simp
    rw [this]
    omega

theorem validateLoop_none_post (c : Campaign) (fuel : Nat) :
    ∀ ks v r, r.Nodup → (∀ x ∈ r, x ∈ v) → Inv c v r →
      (∀ x ∈ r, isNode c x = false) →
      validateLoop c fuel ks v r = some none →
      ∃ v' r', Step c v r v' r' ∧ (∀ x ∈ r', isNode c x = false) ∧
        ∀ k ∈ ks, k ∈ v' := by
  intro ks
  induction ks with
  | nil =>
      intro v r hnd hrv hinv hmiss _
      exact ⟨v, r, Step_refl c v r hnd hrv hinv, hmiss,
        fun k hk => absurd hk (List.not_mem_nil k)⟩
  | cons k ks ih =>
      intro v r hnd hrv hinv hmiss heq
      by_cases hkv : k ∈ v
      · simp only [validateLoop, if_pos hkv] at heq
        obtain ⟨v', r', hstep, hmiss', hks⟩ :=
          ih v r hnd hrv hinv hmiss heq
        refine ⟨v', r', hstep, hmiss', ?_⟩
        intro x hx
        rcases List.mem_cons.mp hx with rfl | hx'
        · exact hstep.1 x hkv
        · exact hks x hx'
      · cases hc : hasCycleF c fuel k v r with
        | none => simp [validateLoop, hkv, hc] at heq
        | some res =>
            obtain ⟨b0, v0, r0⟩ := res
            cases b0 with
            | true => simp [validateLoop, hkv, hc] at heq
            | false =>
                simp only [validateLoop, if_neg hkv, hc] at heq
                obtain ⟨hstep1, hfin⟩ :=
                  (dfs_post c fuel).1 k v r v0 r0 hkv hnd hrv hinv hc
                have hmiss0 : ∀ x ∈ r0, isNode c x = false := by
                  intro x hx
                  rcases hstep1.2.2.2.1 x hx with hxr | ⟨hn, _, _⟩
                  · exact hmiss x hxr
                  · exact hn
                obtain ⟨v', r', hstep2, hmiss', hks⟩ :=
                  ih v0 r0 hstep1.2.2.2.2.1 hstep1.2.2.2.2.2.1
                    hstep1.2.2.2.2.2.2 hmiss0 heq
                refine ⟨v', r',
                  Step_trans c v r v0 r0 v' r' hstep1 hstep2, hmiss', ?_⟩
                intro x hx
                rcases List.mem_cons.mp hx with rfl | hx'
                · exact hstep2.1 x hfin.1
                · exact hks x hx'

theorem chain_rank_desc (c : Campaign) (fl : List String)
    (hrank : ∀ w ∈ fl, ∀ d ∈ adjOf c w, d ∈ fl ∧
      fl.indexOf d < fl.indexOf w) :
    ∀ (ys : List String) (x : String), List.Chain (DepEdge c) x ys →
      x ∈ fl → ∀ z, ys.getLast? = some z →
      z ∈ fl ∧ fl.indexOf z < fl.indexOf x := by
  intro ys
  induction ys with
  | nil =>
      intro x _ _ z hz
      simp at hz
  | cons y ys ih =>
      intro x hch hx z hz
      obtain ⟨hedge, hch'⟩ := List.chain_cons.mp hch
      obtain ⟨hyfl, hylt⟩ := hrank x hx y hedge
      cases ys with
      | nil =>
          have hzy : z = y := by
            have := hz
            simp at this
            exact this.symm
          subst hzy
          exact ⟨hyfl, hylt⟩
      | cons y2 ys2 =>
          have hz' : (y2 :: ys2).getLast? = some z := by
            rw [← hz, List.getLast?_cons_cons]
          obtain ⟨hzfl, hzlt⟩ := ih y hch' hyfl z hz'
          exact ⟨hzfl, lt_trans hzlt hylt⟩

theorem cycle_has_node (c : Campaign) (u : String) (l : List String)
    (hcyc : IsDepCycle c u l) : isNode c u = true := by
  have hedge : ∃ d, DepEdge c u d := by
    unfold IsDepCycle at hcyc
    cases l with
    | nil =>
        obtain ⟨h, _⟩ := List.chain_cons.mp hcyc
        exact ⟨u, h⟩
    | cons a l' =>
        obtain ⟨h, _⟩ := List.chain_cons.mp hcyc
        exact ⟨a, h⟩
  obtain ⟨d0, hd0⟩ := hedge
  unfold DepEdge adjOf at hd0
  cases hfg : findGroup c u with
  | none =>
      rw [hfg] at hd0
      cases hd0
  | some tg =>
      unfold isNode
      rw [hfg]
      rfl

theorem validateCampaign_cycle_rejects (c : Campaign) (u : String)
    (l : List String) (hcyc : IsDepCycle c u l) :
    ∃ k, validateCampaign c = some (some k) := by
  have hnodeu := cycle_has_node c u l hcyc
  have htot := validateCampaign_isSome c
  cases hval : validateCampaign c with
  | none =>
      rw [hval] at htot
      cases htot
  | some o =>
      cases o with
      | some k => exact ⟨k, rfl⟩
      | none =>
          exfalso
          unfold validateCampaign at hval
          have hinv0 : Inv c [] [] := by
            refine ⟨[], List.nodup_nil, ?_, ?_⟩
            · intro x
              unfold Finished
              simp
            · intro w hw
              cases hw
          obtain ⟨v', r', hstep, hmiss, hkeys⟩ :=
            validateLoop_none_post c ((allNodes c).length + 1)
              (tgIds c) [] [] List.nodup_nil
              (fun x hx => absurd hx (List.not_mem_nil x))
              hinv0 (fun x hx => absurd hx (List.not_mem_nil x)) hval
          obtain ⟨fl, hndfl, hf, hrank⟩ := hstep.2.2.2.2.2.2
          have hufl : u ∈ fl := by
            refine (hf u).mp ⟨hkeys u (isNode_mem_tgIds c u hnodeu), ?_⟩
            refine Or.inl ?_
            intro hcon
            rw [hmiss u hcon] at hnodeu
            cases hnodeu
          have hlast : (l ++ [u]).getLast? = some u :=
            List.getLast?_concat l
          obtain ⟨_, hlt⟩ :=
            chain_rank_desc c fl hrank (l ++ [u]) u hcyc hufl u hlast
          exact absurd hlt (lt_irrefl _)

/-! ### The orchestrator (`campaign_orchestrator.py`)

`CampaignOrchestrator` state and the broker-message / submission flows.
`convert` receives the snapshot state `from_campaign(campaign, QUEUED)` and
validates the dependency graph of its task groups; `depView` recovers the
`Campaign` carrying exactly that graph, and `depView_fromCampaign` shows it
is the submitted campaign itself. -/

/-- The campaign a snapshot state describes: same ids, dependencies and
tasks, statuses dropped. -/
def depView (s : CampaignStateM) : Campaign :=
  { id := s.id
    task_groups := s.task_groups.map (fun g =>
      { id := g.id
        group_dependencies := g.group_dependencies
        tasks := g.tasks.map (fun t =>
          { id := t.id
            hierarchy := t.hierarchy
            task_dependencies := t.task_dependencies }) }) }

theorem depView_fromCampaign (c : Campaign) (st : ExecutionStatus) :
    depView (fromCampaign c st) = c := by
  obtain ⟨cid, tgs⟩ := c
  have htasks : ∀ ts : List Task,
      (ts.map (fun t =>
          ({ id := t.id, hierarchy := t.hierarchy,
             task_dependencies := t.task_dependencies,
             status := st } : TaskState))).map (fun t =>
          ({ id := t.id, hierarchy := t.hierarchy,
             task_dependencies := t.task_dependencies } : Task)) = ts := by
    intro ts
    induction ts with
    | nil => rfl
    | cons t ts ih =>
        obtain ⟨i, h, d⟩ := t
        simp only [List.map_cons, List.cons.injEq]
        exact ⟨trivial, ih⟩
  unfold depView fromCampaign
  simp only [Campaign.mk.injEq, true_and]
  induction tgs with
  | nil => rfl
  | cons g gs ih =>
      obtain ⟨gi, gd, gt⟩ := g
      simp only [List.map_cons, List.cons.injEq]
      refine ⟨?_, ih⟩
      simp only [TaskGroup.mk.injEq, true_and]
      exact htasks gt

/-- Python `str.replace('.', '/')`. -/
def dotToSlash (s : String) : String :=
  String.mk (s.data.map (fun c => if c = '.' then '/' else c))

/-- The characters Python `str.strip()` removes. -/
def pyIsSpace (c : Char) : Bool :=
  c = ' ' ∨ c = Char.ofNat 9 ∨ c = Char.ofNat 10 ∨ c = Char.ofNat 13 ∨
    c = Char.ofNat 11 ∨ c = Char.ofNat 12

/-- Python `str.strip()`. -/
def pyStrip (s : String) : String :=
  String.mk (((s.data.dropWhile pyIsSpace).reverse.dropWhile
    pyIsSpace).reverse)

/-- Python `str.lower()` on the ASCII range (every modelled input is
ASCII). -/
def asciiLower (c : Char) : Char :=
  if 'A' ≤ c ∧ c ≤ 'Z' then Char.ofNat (c.toNat + 32) else c

/-- Python `str.lower()`. -/
def pyLower (s : String) : String :=
  String.mk (s.data.map asciiLower)

example : pyLower (pyStrip "  TrUe  ") = "true" := by decide

/-- `CampaignOrchestrator._has_error`: broker headers are `dict[str, str]`,
so the `isinstance(value, bool)` branch never fires; a present value is
stripped, lowercased and matched against the two recognised tuples, anything
else giving `None`. -/
def hasErrorHdr (headers : List (String × String)) : Option Bool :=
  match headers.lookup "has_error" with
  | none => none
  | some v =>
      let normalized := pyLower (pyStrip v)
      if normalized = "true" ∨ normalized = "1" ∨ normalized = "yes" then
        some true
      else if normalized = "false" ∨ normalized = "0" ∨
          normalized = "no" then
        some false
      else none

/-- `CampaignOrchestrator._candidate_headers` on a dict payload: the
`header`, `headers`, `parent_header` entries that are dicts, in that
order.  (On a non-dict payload `payload.get` raises `AttributeError`;
callers model that case.) -/
def candidateFields (fs : JsonFields) : List JsonFields :=
  ["header", "headers", "parent_header"].filterMap (fun k =>
    match fs.lookup k with
    | some (.jobj h) => some h
    | _ => none)

/-- The candidate-header scan of `_extract_campaign_id` and
`_extract_service_hierarchy`: the first header carrying a string under the
key. -/
def firstStrField : List JsonFields → String → Option String
  | [], _ => none
  | h :: hs, k =>
      match h.lookup k with
      | some (.jstr v) => some v
      | _ => firstStrField hs k

/-- `CampaignOrchestrator._extract_campaign_id`; `.error` models the
`AttributeError` raised by `payload.get` when `json.loads` produced a
non-dict. -/
def extractCampaignId (headers : List (String × String))
    (payload : Jsonish) : Except String (Option String) :=
  match headers.lookup "campaignId" with
  | some v => .ok (some v)
  | none =>
  match headers.lookup "campaign_id" with
  | some v => .ok (some v)
  | none =>
  match headers.lookup "id" with
  | some v => .ok (some v)
  | none =>
  match payload with
  | .jobj fs =>
      match firstStrField (candidateFields fs) "campaignId" with
      | some v => .ok (some v)
      | none =>
          match fs.lookup "campaignId" with
          | some (.jstr v) => .ok (some v)
          | _ => .ok none
  | _ => .error "AttributeError"

/-- The scalar tail of `_normalize_node_id`: `None` stays unresolved, any
other value goes through `uuid.UUID(str(value))`. -/
def normalizeScalar : Jsonish → Option String
  | .jnull => none
  | x => uuidParse (pyStr x)

/-- `CampaignOrchestrator._normalize_node_id`: unwrap a non-empty list to
its first element (an empty list resolves to nothing), then parse. -/
def normalizeNodeId : Option Jsonish → Option String
  | none => none
  | some (.jarr .nil) => none
  | some (.jarr (.cons x _)) => normalizeScalar x
  | some x => normalizeScalar x

/-- The candidate-header scan of `_extract_node_id`. -/
def firstNodeId : List JsonFields → Option String
  | [] => none
  | h :: hs =>
      match normalizeNodeId (h.lookup "nodeId") with
      | some nid => some nid
      | none => firstNodeId hs

/-- `CampaignOrchestrator._extract_node_id`. -/
def extractNodeId (headers : List (String × String))
    (payload : Jsonish) : Except String (Option String) :=
  match (match headers.lookup "nodeId" with
         | some v => uuidParse v
         | none => none) with
  | some nid => .ok (some nid)
  | none =>
  match (match headers.lookup "node_id" with
         | some v => uuidParse v
         | none => none) with
  | some nid => .ok (some nid)
  | none =>
  match payload with
  | .jobj fs =>
      match firstNodeId (candidateFields fs) with
      | some nid => .ok (some nid)
      | none => .ok (normalizeNodeId (fs.lookup "nodeId"))
  | _ => .error "AttributeError"

/-- `CampaignOrchestrator._extract_error_message`: only a `True` error flag
yields a message, taken from the first truthy of `payload['payload']`,
`payload['content']`, the payload itself. -/
def extractErrorMessage (has_error : Option Bool) (payload : Jsonish) :
    Except String (Option String) :=
  match has_error with
  | some true =>
      (match payload with
       | .jobj fs =>
           let ep : Jsonish :=
             match fs.lookup "payload" with
             | some v =>
                 if jtruthy v then v
                 else
                   match fs.lookup "content" with
                   | some w => if jtruthy w then w else payload
                   | none => payload
             | none =>
                 match fs.lookup "content" with
                 | some w => if jtruthy w then w else payload
                 | none => payload
           .ok (some (pyStr ep))
       | _ => .error "AttributeError")
  | _ => .ok none

/-- The candidate-header scan of `_is_step_complete_message`: the first
boolean `has_error` decides; none found means not a completion. -/
def firstBoolHasError : List JsonFields → Bool
  | [] => false
  | h :: hs =>
      match h.lookup "has_error" with
      | some (.jbool b) => !b
      | _ => firstBoolHasError hs

/-- `CampaignOrchestrator._is_step_complete_message`. -/
def isStepCompleteMessage (has_error : Option Bool) (payload : Jsonish) :
    Except String Bool :=
  match has_error with
  | some b => .ok (!b)
  | none =>
      match payload with
      | .jobj fs => .ok (firstBoolHasError (candidateFields fs))
      | _ => .error "AttributeError"

/-- `CampaignOrchestrator._extract_service_hierarchy`. -/
def extractServiceHierarchy (headers : List (String × String))
    (payload : Jsonish) : Except String (Option String) :=
  match headers.lookup "source" with
  | some v => .ok (some v)
  | none =>
      match payload with
      | .jobj fs => .ok (firstStrField (candidateFields fs) "source")
      | _ => .error "AttributeError"

/-- The events `_emit_event` broadcasts
(`orchestrator_events.py` classes). -/
inductive EmittedEvent where
  | stepStart (campaign_id step_id : String)
  | stepComplete (campaign_id step_id payload : String)
  | campaignComplete (campaign_id : String)
  | campaignErrorFromService
      (campaign_id step_id service_hierarchy exception_message : String)
  | unknownError (campaign_id exception_message : String)
deriving DecidableEq, Repr

/-- A message handed to `control_plane_manager.publish_message`. -/
structure PublishedMsg where
  topic : String
  payload : String
  content_type : String
  headers : List (String × String)
deriving DecidableEq, Repr

/-- The orchestrator's per-campaign dataclass (`CampaignState` in
`campaign_orchestrator.py`; named `LiveCampaign` here because the snapshot
model `campaign_state.py` also calls its class `CampaignState`). -/
structure LiveCampaign where
  campaign_id : String
  campaign_aliases : List String
  campaign : Campaign
  steps : List String
  current_index : Nat
  active_step : Option String
deriving DecidableEq, Repr

/-- The mutable maps of `CampaignOrchestrator` (`_campaign_petri_nets`
tracked by key only: no modelled behaviour reads a stored net). -/
structure Orch where
  campaigns : List (String × LiveCampaign)
  campaign_aliases : List (String × String)
  nets : List String
  repo : Repo
deriving DecidableEq, Repr

/-- The orchestrator plus its two outbound channels: events broadcast via
the intersect client and messages published to the control plane. -/
structure Sys where
  orch : Orch
  emitted : List EmittedEvent
  published : List PublishedMsg
deriving DecidableEq, Repr

/-- The result of an orchestrator entry point: the final system state and
the uncaught exception, if one was raised. -/
def Outcome : Type := Sys × Option String

def Sys.emit (s : Sys) (e : EmittedEvent) : Sys :=
  { s with emitted := s.emitted ++ [e] }

def Sys.publish (s : Sys) (m : PublishedMsg) : Sys :=
  { s with published := s.published ++ [m] }

def Sys.setRepo (s : Sys) (r : Repo) : Sys :=
  { s with orch := { s.orch with repo := r } }

/-- Python field assignment on a state object still referenced by
`_campaigns`: rewrite the map entry (a no-op once the entry was popped,
matching the lost reference). -/
def Orch.writeState (o : Orch) (st : LiveCampaign) : Orch :=
  { o with campaigns := setAssoc o.campaigns st.campaign_id st }

def Sys.writeState (s : Sys) (st : LiveCampaign) : Sys :=
  { s with orch := s.orch.writeState st }

/-- `dict.pop(key, None)`: drop the entry if present. -/
def popKey {α : Type} : List (String × α) → String → List (String × α)
  | [], _ => []
  | (k, v) :: rest, key =>
      if k = key then rest else (k, v) :: popKey rest key

/-- `CampaignOrchestrator._remove_campaign`: pop the campaign and all its
aliases; the stored Petri net is NOT removed. -/
def Orch.removeCampaign (o : Orch) (cid : String) :
    Orch × Option LiveCampaign :=
  match o.campaigns.lookup cid with
  | none => (o, none)
  | some st =>
      ({ o with
          campaigns := popKey o.campaigns cid
          campaign_aliases :=
            st.campaign_aliases.foldl popKey o.campaign_aliases },
        some st)

def Sys.removeCampaign (s : Sys) (cid : String) : Sys :=
  { s with orch := (s.orch.removeCampaign cid).1 }

/-- `CampaignOrchestrator._get_task_from_campaign`, inner task scan: a task
matches by parsed UUID when its id parses, else by literal string. -/
def findTaskIn : List Task → String → Option Task
  | [], _ => none
  | t :: ts, sid =>
      match uuidParse t.id with
      | some tid => if tid = sid then some t else findTaskIn ts sid
      | none => if t.id = sid then some t else findTaskIn ts sid

/-- `CampaignOrchestrator._get_task_from_campaign`. -/
def getTaskFromCampaign (c : Campaign) (sid : String) : Option Task :=
  match c.task_groups with
  | [] => none
  | _ =>
      (c.task_groups.map (fun g => findTaskIn g.tasks sid)).foldl
        (fun acc r => match acc with
          | some t => some t
          | none => r) none

/-- `CampaignOrchestrator._task_to_metadata` on the task's `model_dump`:
`hierarchy` is a required model field, so the `.get` default never
applies. -/
def taskToMetadata (t : Task) : JsonFields :=
  .cons "topic" (.jstr (dotToSlash t.hierarchy ++ "/response"))
    (.cons "headers"
      (.jobj (.cons "source" (.jstr t.hierarchy)
        (.cons "sdk_version" (.jstr "0.0.1") .nil))) .nil)

/-- The campaign-level fallback metadata of
`CampaignOrchestrator._step_metadata`. -/
def fallbackMetadata : JsonFields :=
  .cons "topic" (.jstr "org/fac/system/subsystem/service/response")
    (.cons "headers"
      (.jobj (.cons "source" (.jstr "org.fac.system.subsystem.service")
        (.cons "sdk_version" (.jstr "0.0.1") .nil))) .nil)

/-- `CampaignOrchestrator._step_metadata`. -/
def stepMetadata (c : Campaign) (sid : String) : JsonFields :=
  match getTaskFromCampaign c sid with
  | some t => taskToMetadata t
  | none => fallbackMetadata

/-- Python `dict.update`: existing keys keep their slot with the new value,
new keys append in iteration order. -/
def dictUpdate : List (String × Jsonish) → JsonFields →
    List (String × Jsonish)
  | hs, .nil => hs
  | hs, .cons k v fs =>
      dictUpdate
        (if (hs.lookup k).isSome then setAssoc hs k v else hs ++ [(k, v)])
        fs

/-- Python `dict.setdefault`. -/
def setDefault (hs : List (String × Jsonish)) (k : String) (v : Jsonish) :
    List (String × Jsonish) :=
  if (hs.lookup k).isSome then hs else hs ++ [(k, v)]

/-- The `for key in (source, …, nodeId)` loop of `_resolve_headers`: copy a
present, non-`None` metadata entry unless the key is already set. -/
def addMetaKeys (metadata : JsonFields) :
    List (String × Jsonish) → List String → List (String × Jsonish)
  | hs, [] => hs
  | hs, k :: ks =>
      match metadata.lookup k with
      | none => addMetaKeys metadata hs ks
      | some .jnull => addMetaKeys metadata hs ks
      | some v =>
          addMetaKeys metadata
            (if (hs.lookup k).isSome then hs else hs ++ [(k, v)]) ks

/-- `CampaignOrchestrator._normalize_header_value`. -/
def normalizeHeaderValue : Jsonish → String
  | .jbool true => "true"
  | .jbool false => "false"
  | v => pyStr v

/-- `CampaignOrchestrator._resolve_headers`; `now` stands for
`datetime.now(UTC).isoformat()`. -/
def resolveHeaders (metadata : JsonFields) (now : String) :
    Except String (List (String × String)) :=
  let mh : Option Jsonish :=
    match metadata.lookup "headers" with
    | some v =>
        if jtruthy v then some v else metadata.lookup "header"
    | none => metadata.lookup "header"
  let headers0 : List (String × Jsonish) :=
    match mh with
    | some (.jobj fs) => dictUpdate [] fs
    | _ => []
  let headers1 := addMetaKeys metadata headers0
    ["source", "destination", "created_at", "sdk_version",
     "data_handler", "has_error", "campaignId", "nodeId"]
  let headers2 := setDefault headers1 "created_at" (.jstr now)
  let headers3 := setDefault headers2 "has_error" (.jbool false)
  let missing :=
    (if (headers3.lookup "sdk_version").isSome then []
     else ["sdk_version"]) ++
    (if (headers3.lookup "source").isSome then [] else ["source"])
  if missing ≠ [] then
    .error ("Missing required headers for step: " ++
      String.intercalate ", " missing)
  else
    .ok (headers3.map (fun kv => (kv.1, normalizeHeaderValue kv.2)))

/-- `CampaignOrchestrator._resolve_content_type`. -/
def resolveContentType (metadata : JsonFields) : String :=
  match metadata.lookup "content_type" with
  | some (.jstr v) =>
      if v = "" then
        match metadata.lookup "contentType" with
        | some (.jstr w) =>
            if w = "" then "application/octet-stream" else w
        | _ => "application/octet-stream"
      else v
  | _ =>
      match metadata.lookup "contentType" with
      | some (.jstr w) => if w = "" then "application/octet-stream" else w
      | _ => "application/octet-stream"

/-- `CampaignOrchestrator._resolve_payload` (payload bytes kept as the
string they decode to). -/
def resolvePayload (metadata : JsonFields) : String × String :=
  let content_type := resolveContentType metadata
  let raw : Option Jsonish :=
    match metadata.lookup "payload" with
    | some v => some v
    | none =>
        match metadata.lookup "input" with
        | some v => some v
        | none => metadata.lookup "data"
  match raw with
  | none => ("", content_type)
  | some .jnull => ("", content_type)
  | some (.jstr s) => (s, content_type)
  | some v =>
      let ct :=
        if content_type = "application/octet-stream" then
          "application/json"
        else content_type
      (jsonDumps v, ct)

/-- The `except ValueError` arm of `_dispatch_step`: emit an unknown-error
event, record `CAMPAIGN_ERROR`, drop the campaign. -/
def dispatchError (s : Sys) (st : LiveCampaign) (msg : String) : Outcome :=
  let s1 := s.emit (.unknownError st.campaign_id msg)
  match record_campaign_event s1.orch.repo st.campaign_id "CAMPAIGN_ERROR"
      [("error", msg)] with
  | .error e => (s1, some e)
  | .ok r1 => ((s1.setRepo r1).removeCampaign st.campaign_id, none)

/-- `CampaignOrchestrator._dispatch_step`. -/
def dispatchStep (s : Sys) (st : LiveCampaign) (now : String) : Outcome :=
  match st.active_step with
  | none => (s, none)
  | some sid =>
      let metadata := stepMetadata st.campaign sid
      match resolveHeaders metadata now with
      | .error e => dispatchError s st e
      | .ok headers =>
          match resolve_topic metadata headers with
          | .error e => dispatchError s st e
          | .ok topic =>
              let headers1 :=
                if (headers.lookup "destination").isSome then headers
                else headers ++ [("destination", topic)]
              match resolvePayload metadata with
              | (payload, content_type) =>
                  let msg : PublishedMsg :=
                    { topic := topic
                      payload := payload
                      content_type := content_type
                      headers := headers1 }
                  (s.publish msg, none)

/-- `CampaignOrchestrator._finish_campaign`. -/
def finishCampaign (s : Sys) (st : LiveCampaign) : Outcome :=
  let s1 := s.emit (.campaignComplete st.campaign_id)
  match record_campaign_event s1.orch.repo st.campaign_id
      "CAMPAIGN_COMPLETED" [] with
  | .error e => (s1, some e)
  | .ok r1 => ((s1.setRepo r1).removeCampaign st.campaign_id, none)

/-- `CampaignOrchestrator._start_next_step`. -/
def startNextStep (s : Sys) (st : LiveCampaign) (now : String) : Outcome :=
  if st.steps.length ≤ st.current_index then finishCampaign s st
  else
    let step := st.steps.getD st.current_index ""
    match record_campaign_event s.orch.repo st.campaign_id
        "CAMPAIGN_STARTED" [("step_id", step)] with
    | .error e => (s, some e)
    | .ok r1 =>
        let st1 := { st with active_step := some step }
        let s1 := ((s.setRepo r1).writeState st1).emit
          (.stepStart st.campaign_id step)
        dispatchStep s1 st1 now

/-- `CampaignOrchestrator._complete_step`. -/
def completeStep (s : Sys) (st : LiveCampaign) (raw now : String) :
    Outcome :=
  match st.active_step with
  | none => (s, none)
  | some sid =>
      let s1 := s.emit (.stepComplete st.campaign_id sid raw)
      match record_event s1.orch.repo st.campaign_id "STEP_COMPLETE"
          [("step_id", sid)] with
      | .error e => (s1, some e)
      | .ok r1 =>
          let st1 := { st with
            current_index := st.current_index + 1
            active_step := none }
          startNextStep ((s1.setRepo r1).writeState st1) st1 now

/-- `CampaignOrchestrator._get_state_for_campaign_alias`. -/
def lookupState (o : Orch) (cidRaw : String) : Option LiveCampaign :=
  match o.campaign_aliases.lookup cidRaw with
  | none => none
  | some cid => o.campaigns.lookup cid

/-- `payload = self._parse_json(message) or {}` at the top of
`handle_broker_message`: `parsed` is the `json.loads` result (`none` when
parsing raised). -/
def resolvedPayload (parsed : Option Jsonish) : Jsonish :=
  match parsed with
  | none => .jobj .nil
  | some p => p

/-- The service-error arm of `handle_broker_message`. -/
def serviceErrorPath (s : Sys) (st : LiveCampaign) (active : String)
    (errMsg : String) (headers : List (String × String))
    (payload : Jsonish) : Outcome :=
  match extractServiceHierarchy headers payload with
  | .error e => (s, some e)
  | .ok shOpt =>
      let sh :=
        match shOpt with
        | some h => if h = "" then "unknown-service" else h
        | none => "unknown-service"
      let s1 := s.emit
        (.campaignErrorFromService st.campaign_id active sh errMsg)
      match record_campaign_event s1.orch.repo st.campaign_id
          "CAMPAIGN_ERROR" [("error", errMsg), ("step_id", active)] with
      | .error e => (s1, some e)
      | .ok r1 => ((s1.setRepo r1).removeCampaign st.campaign_id, none)

/-- `CampaignOrchestrator.handle_broker_message` (`content_type` is read
and discarded by the source). -/
def handleBrokerMessage (s : Sys) (raw : String) (content_type : String)
    (parsed : Option Jsonish) (headers : List (String × String))
    (now : String) : Outcome :=
  let _ := content_type
  let payload := resolvedPayload parsed
  match extractCampaignId headers payload with
  | .error e => (s, some e)
  | .ok none => (s, none)
  | .ok (some cidRaw) =>
      match lookupState s.orch cidRaw with
      | none => (s, none)
      | some st =>
          match extractNodeId headers payload with
          | .error e => (s, some e)
          | .ok nodeOpt =>
              match nodeOpt, st.active_step with
              | none, _ => (s, none)
              | some _, none => (s, none)
              | some nid, some active =>
                  if nid ≠ active then (s, none)
                  else
                    let has_error := hasErrorHdr headers
                    match extractErrorMessage has_error payload with
                    | .error e => (s, some e)
                    | .ok (some errMsg) =>
                        serviceErrorPath s st active errMsg headers payload
                    | .ok none =>
                        match isStepCompleteMessage has_error payload with
                        | .error e => (s, some e)
                        | .ok false => (s, none)
                        | .ok true => completeStep s st raw now

/-- `dict[key] = value`: overwrite in place or append. -/
def putAssoc {α : Type} (l : List (String × α)) (k : String) (v : α) :
    List (String × α) :=
  if (l.lookup k).isSome then setAssoc l k v else l ++ [(k, v)]

/-- `CampaignOrchestrator.submit_campaign`; `freshId` stands for the
`uuid.uuid4()` drawn when the campaign id is not a UUID, `now` for the
dispatch timestamp.  `convert` validates the snapshot state before anything
is registered or stored; net construction itself touches only the
converter.  The outer `none` is the modelling fuel of the validation DFS
(impossible, by `validateCampaign_isSome`). -/
def submitCampaign (s : Sys) (c : Campaign) (freshId now : String) :
    Option Outcome :=
  let campaign_id :=
    match uuidParse c.id with
    | some cid => cid
    | none => freshId
  let steps := stepsFromCampaign c
  let aliases :=
    if c.id = campaign_id then [c.id] else [c.id, campaign_id]
  let campaign_state := fromCampaign c ExecutionStatus.queued
  match validateCampaign (depView campaign_state) with
  | none => none
  | some (some k) =>
      some (s, some
        ("Circular dependency detected in task groups involving " ++ k))
  | some none =>
      if (s.orch.campaigns.lookup campaign_id).isSome then
        some (s, some ("Campaign already registered: " ++ campaign_id))
      else
        let st : LiveCampaign :=
          { campaign_id := campaign_id
            campaign_aliases := aliases
            campaign := c
            steps := steps
            current_index := 0
            active_step := none }
        let o1 : Orch :=
          { s.orch with
              campaigns := s.orch.campaigns ++ [(campaign_id, st)]
              campaign_aliases := aliases.foldl
                (fun m a => putAssoc m a campaign_id)
                s.orch.campaign_aliases
              nets := s.orch.nets ++ [campaign_id] }
        let s1 := { s with orch := o1 }
        match s1.orch.repo.create_campaign campaign_id c campaign_state with
        | .error e => some (s1, some e)
        | .ok r1 => some (startNextStep (s1.setRepo r1) st now)

instance (c : Campaign) (u : String) (l : List String) :
    Decidable (IsDepCycle c u l) :=
  inferInstanceAs (Decidable (List.Chain (DepEdge c) u (l ++ [u])))

/-- A three-group cycle `a → b → c → a`. -/
def cycleCampaign : Campaign :=
  { id := "cyclic-demo"
    task_groups :=
      [ { id := "a", group_dependencies := ["b"], tasks := [] },
        { id := "b", group_dependencies := ["c"], tasks := [] },
        { id := "c", group_dependencies := ["a"], tasks := [] } ] }

/-- An orchestrator with nothing registered and an empty event store. -/
def emptySys : Sys :=
  { orch :=
      { campaigns := [], campaign_aliases := [], nets := []
        repo := emptyRepo }
    emitted := [], published := [] }

/-- **C6.** For every campaign whose task-group dependencies form a cycle,
`submit_campaign` raises the circular-dependency validation error during
Petri-net conversion, before the lock block, the live-campaign registration
and `create_campaign`: the returned system state is exactly the input
state — no snapshot is created in the event store and no live campaign is
registered. -/
theorem c6_cyclic_submit_rejected (s : Sys) (c : Campaign)
    (freshId now : String) (u : String) (l : List String)
    (hcyc : IsDepCycle c u l) :
    ∃ k, submitCampaign s c freshId now =
      some (s, some
        ("Circular dependency detected in task groups involving " ++ k)) := by
  obtain ⟨k, hk⟩ := validateCampaign_cycle_rejects c u l hcyc
  refine ⟨k, ?_⟩
  simp only [submitCampaign]
  rw [depView_fromCampaign, hk]

theorem cycleCampaign_has_cycle :
    IsDepCycle cycleCampaign "a" ["b", "c"] :=
  List.Chain.cons (show DepEdge cycleCampaign "a" "b" by decide)
    (List.Chain.cons (show DepEdge cycleCampaign "b" "c" by decide)
      (List.Chain.cons (show DepEdge cycleCampaign "c" "a" by decide)
        List.Chain.nil))

theorem c6_cyclic_submit_rejected_witness :
    IsDepCycle cycleCampaign "a" ["b", "c"] ∧
    ∃ k, submitCampaign emptySys cycleCampaign "fresh-id" "now" =
      some (emptySys, some
        ("Circular dependency detected in task groups involving " ++ k)) :=
  ⟨cycleCampaign_has_cycle,
   c6_cyclic_submit_rejected emptySys cycleCampaign "fresh-id" "now"
     "a" ["b", "c"] cycleCampaign_has_cycle⟩

/-- **C7.** A broker callback whose campaign id does not resolve, or
resolves to no live campaign (in particular one already completed and
removed), or whose node id does not resolve while a step is active, or
resolves while no step is active, or differs from the active step, is
silently dropped: `handle_broker_message` returns with no event emitted,
nothing recorded and the orchestrator and store state unchanged. -/
theorem c7_unmatched_broker_messages_dropped (s : Sys)
    (raw content_type : String) (parsed : Option Jsonish)
    (headers : List (String × String)) (now : String)
    (h :
      extractCampaignId headers (resolvedPayload parsed) = .ok none ∨
      (∃ cidRaw,
        extractCampaignId headers (resolvedPayload parsed) =
          .ok (some cidRaw) ∧
        lookupState s.orch cidRaw = none) ∨
      (∃ cidRaw st,
        extractCampaignId headers (resolvedPayload parsed) =
          .ok (some cidRaw) ∧
        lookupState s.orch cidRaw = some st ∧
        (extractNodeId headers (resolvedPayload parsed) = .ok none ∨
         (∃ r, extractNodeId headers (resolvedPayload parsed) = .ok r ∧
           st.active_step = none) ∨
         (∃ nid active,
           extractNodeId headers (resolvedPayload parsed) =
             .ok (some nid) ∧
           st.active_step = some active ∧ nid ≠ active)))) :
    handleBrokerMessage s raw content_type parsed headers now =
      (s, none) := by
  rcases h with h1 | ⟨cidRaw, h1, h2⟩ | ⟨cidRaw, st, h1, h2, h3⟩
  · simp only [handleBrokerMessage]
    rw [h1]
  · simp only [handleBrokerMessage]
    rw [h1]
    dsimp only
    rw [h2]
  · simp only [handleBrokerMessage]
    rw [h1]
    dsimp only
    rw [h2]
    dsimp only
    rcases h3 with h3 | ⟨r, h3, h4⟩ | ⟨nid, active, h3, h4, h5⟩
    · rw [h3]
    · rw [h3]
      dsimp only
      rw [h4]
      cases r with
      | none => rfl
      | some nid => rfl
    · rw [h3]
      dsimp only
      rw [h4]
      dsimp only
      rw [if_pos h5]

theorem c7_unmatched_broker_messages_dropped_witness :
    extractCampaignId [] (resolvedPayload (some (.jobj .nil))) =
      .ok none ∧
    handleBrokerMessage emptySys "raw" "ct" (some (.jobj .nil)) []
      "now" = (emptySys, none) :=
  ⟨rfl,
   c7_unmatched_broker_messages_dropped emptySys "raw" "ct"
     (some (.jobj .nil)) [] "now" (Or.inl rfl)⟩

/-- Claim C10's payload side condition: no candidate header of the payload
carries a boolean `has_error`. -/
def noBoolHasErrorB (payload : Jsonish) : Bool :=
  match payload with
  | .jobj fs =>
      (candidateFields fs).all (fun hd =>
        match hd.lookup "has_error" with
        | some (.jbool _) => false
        | _ => true)
  | _ => true

theorem firstBoolHasError_eq_false (chs : List JsonFields)
    (h : chs.all (fun hd =>
      match hd.lookup "has_error" with
      | some (.jbool _) => false
      | _ => true) = true) :
    firstBoolHasError chs = false := by
  induction chs with
  | nil => rfl
  | cons hd hs ih =>
      rw [List.all_cons, Bool.and_eq_true] at h
      obtain ⟨h1, h2⟩ := h
      cases hl : hd.lookup "has_error" with
      | none =>
          simp only [firstBoolHasError, hl]
          exact ih h2
      | some v =>
          rw [hl] at h1
          cases v
          case jbool b => simp at h1
          all_goals
            simp only [firstBoolHasError, hl]
            exact ih h2

/-- **C10.** When the `has_error` broker header is a string outside the
recognised set (case-insensitively, after stripping) and no candidate
header of the payload carries a boolean `has_error`, the message is treated
as neither a service error nor a step completion: the handler leaves the
whole system state — events, records, live campaigns, active step and
cursor — unchanged. -/
theorem c10_unrecognized_has_error_no_effect (s : Sys)
    (raw content_type : String) (parsed : Option Jsonish)
    (headers : List (String × String)) (now : String) (v : String)
    (hv : headers.lookup "has_error" = some v)
    (hnorm : pyLower (pyStrip v) ≠ "true" ∧ pyLower (pyStrip v) ≠ "1" ∧
      pyLower (pyStrip v) ≠ "yes" ∧ pyLower (pyStrip v) ≠ "false" ∧
      pyLower (pyStrip v) ≠ "0" ∧ pyLower (pyStrip v) ≠ "no")
    (hnb : noBoolHasErrorB (resolvedPayload parsed) = true) :
    (handleBrokerMessage s raw content_type parsed headers now).1 = s := by
  obtain ⟨h1, h2, h3, h4, h5, h6⟩ := hnorm
  have hhe : hasErrorHdr headers = none := by
    unfold hasErrorHdr
    rw [hv]
    dsimp only
    rw [if_neg (by simp [h1, h2, h3]), if_neg (by simp [h4, h5, h6])]
  simp only [handleBrokerMessage]
  cases hcid : extractCampaignId headers (resolvedPayload parsed) with
  | error e => rfl
  | ok o =>
      cases o with
      | none => rfl
      | some cidRaw =>
          dsimp only
          cases hls : lookupState s.orch cidRaw with
          | none => rfl
          | some st =>
              dsimp only
              cases hni : extractNodeId headers (resolvedPayload parsed)
                  with
              | error e => rfl
              | ok nodeOpt =>
                  dsimp only
                  cases nodeOpt with
                  | none => rfl
                  | some nid =>
                      cases hac : st.active_step with
                      | none => rfl
                      | some active =>
                          dsimp only
                          by_cases hne : nid ≠ active
                          · rw [if_pos hne]
                          · rw [if_neg hne]
                            rw [hhe]
                            cases hp : resolvedPayload parsed with
                            | jobj fs =>
                                rw [hp] at hnb
                                simp only [noBoolHasErrorB] at hnb
                                have hfb := firstBoolHasError_eq_false
                                  (candidateFields fs) hnb
                                simp only [extractErrorMessage,
                                  isStepCompleteMessage, hfb]
                            | jnull => rfl
                            | jbool b => rfl
                            | jnum n => rfl
                            | jstr str => rfl
                            | jarr xs => rfl

theorem c10_unrecognized_has_error_no_effect_witness :
    ([("has_error", "maybe")] :
      List (String × String)).lookup "has_error" = some "maybe" ∧
    pyLower (pyStrip "maybe") ≠ "true" ∧
    noBoolHasErrorB (resolvedPayload none) = true ∧
    (handleBrokerMessage emptySys "msg" "ct" none
      [("has_error", "maybe")] "now").1 = emptySys :=
  ⟨rfl, by decide, rfl,
   c10_unrecognized_has_error_no_effect emptySys "msg" "ct" none
     [("has_error", "maybe")] "now" "maybe" rfl
     (by refine ⟨?_, ?_, ?_, ?_, ?_, ?_⟩ <;> decide) rfl⟩

end Orchestrator
